import Mathlib

/-!
Verification development for the Typista spell checker
(Hunspell-style checking, BK-tree suggestions, SymSpell-ported
Damerau-Levenshtein ranking distance).

The TypeScript sources are shallowly embedded as Lean functions:
strings become `String` / `List Char` (JS `[...str]` spreads a string
into code points, which matches `String.data`), JS numbers used as
array indices / costs become `Nat` / `Int` / `ℚ`, and the `Uint16Array`
scratch buffers of the distance kernel store values modulo 2^16.
Module-level mutable scratch buffers are passed explicitly; memoization
caches (pure-function caches that are cleared on mutation) are not
modelled, so each memoized function is embedded as the pure function it
caches.
-/

namespace Typista

/-- Length of the longest common prefix of two lists
(the `while (start !== len1 && chars1[start] === chars2[start])` loop
shape used by `prefixSuffixPrep` in damerauSymSpell.ts). -/
def commonPrefixLen : List Char → List Char → Nat
  | x :: xs, y :: ys => if x = y then commonPrefixLen xs ys + 1 else 0
  | _, _ => 0

theorem commonPrefixLen_self (xs : List Char) : commonPrefixLen xs xs = xs.length := by
  induction xs with
  | nil => rfl
  | cons x xs ih => simp [commonPrefixLen, ih]

theorem commonPrefixLen_le_left (xs ys : List Char) :
    commonPrefixLen xs ys ≤ xs.length := by
  induction xs generalizing ys with
  | nil => simp [commonPrefixLen]
  | cons x xs ih =>
    cases ys with
    | nil => simp [commonPrefixLen]
    | cons y ys =>
      simp only [commonPrefixLen]
      split
      · simpa using ih ys
      · simp

theorem commonPrefixLen_le_right (xs ys : List Char) :
    commonPrefixLen xs ys ≤ ys.length := by
  induction xs generalizing ys with
  | nil => simp [commonPrefixLen]
  | cons x xs ih =>
    cases ys with
    | nil => simp [commonPrefixLen]
    | cons y ys =>
      simp only [commonPrefixLen]
      split
      · simpa using ih ys
      · simp

theorem commonPrefixLen_take_eq (xs ys : List Char) :
    xs.take (commonPrefixLen xs ys) = ys.take (commonPrefixLen xs ys) := by
  induction xs generalizing ys with
  | nil => simp [commonPrefixLen]
  | cons x xs ih =>
    cases ys with
    | nil => simp [commonPrefixLen]
    | cons y ys =>
      simp only [commonPrefixLen]
      split
      · next h => simp [List.take_succ_cons, h, ih ys]
      · simp

/-- Plain Levenshtein distance on code-point lists.
Modelled from the spec: the `levenshteinDistance` used for BK-tree
construction and traversal comes from `@std/text/levenshtein-distance`
(an external dependency, not part of this repository); per spec §4.5 it
is "plain Levenshtein (insert/delete/substitute)". -/
def lev : List Char → List Char → Nat
  | [], ys => ys.length
  | xs, [] => xs.length
  | x :: xs, y :: ys =>
    if x = y then lev xs ys
    else 1 + min (lev xs ys) (min (lev (x :: xs) ys) (lev xs (y :: ys)))
  termination_by xs ys => xs.length + ys.length

theorem lev_self (xs : List Char) : lev xs xs = 0 := by
  induction xs with
  | nil => simp [lev]
  | cons x xs ih => simp [lev, ih]

/-- Levenshtein distance on strings, as used by the BK-tree. -/
def levD (a b : String) : Nat := lev a.data b.data

theorem levD_self (a : String) : levD a a = 0 := lev_self a.data

/-- Default character handed to out-of-range `List.getD` lookups in the
matrix form of the restricted Damerau-Levenshtein recurrence; every
lookup that influences a proved statement is in range. -/
def dCh : Char := '\x00'

/-- Cell `(i, j)` of the textbook optimal-string-alignment (restricted
Damerau-Levenshtein) matrix for `xs` against `ys`: the distance between
the length-`i` prefix of `xs` and the length-`j` prefix of `ys`, where
each of substitution, insertion, deletion and adjacent transposition
costs 1 and the transposition case is the standard one-cell lookback of
the OSA recurrence. -/
def osaD (xs ys : List Char) : Nat → Nat → Nat
  | 0, j => j
  | i + 1, 0 => i + 1
  | i + 1, j + 1 =>
    let x := xs.getD i dCh
    let y := ys.getD j dCh
    let base :=
      if x = y then osaD xs ys i j
      else 1 + min (osaD xs ys i j) (min (osaD xs ys (i + 1) j) (osaD xs ys i (j + 1)))
    if 1 ≤ i ∧ 1 ≤ j ∧ x = ys.getD (j - 1) dCh ∧ xs.getD (i - 1) dCh = y then
      min base (osaD xs ys (i - 1) (j - 1) + 1)
    else base
  termination_by i j => i + j

/-- The restricted Damerau-Levenshtein (optimal string alignment)
distance between two code-point lists. -/
def osa (xs ys : List Char) : Nat := osaD xs ys xs.length ys.length

theorem osaD_zero_left (xs ys : List Char) (j : Nat) : osaD xs ys 0 j = j := by
  simp [osaD]

theorem osaD_zero_right (xs ys : List Char) (i : Nat) : osaD xs ys (i + 1) 0 = i + 1 := by
  simp [osaD]

/-- One cell of the OSA recurrence, abstracted over the neighbouring
matrix values, so that both the reference matrix and the SymSpell inner
loop can be related to it. -/
def osaStep (x y pyj pxi : Char) (diag up left lb : Nat) (i j : Nat) : Nat :=
  let base := if x = y then diag else 1 + min diag (min up left)
  if 1 ≤ i ∧ 1 ≤ j ∧ x = pyj ∧ pxi = y then min base (lb + 1) else base

theorem osaD_succ_succ (xs ys : List Char) (i j : Nat) :
    osaD xs ys (i + 1) (j + 1) =
      osaStep (xs.getD i dCh) (ys.getD j dCh) (ys.getD (j - 1) dCh) (xs.getD (i - 1) dCh)
        (osaD xs ys i j) (osaD xs ys (i + 1) j) (osaD xs ys i (j + 1))
        (osaD xs ys (i - 1) (j - 1)) i j := by
  simp [osaD, osaStep]

theorem osaD_le_max (xs ys : List Char) : ∀ i j, osaD xs ys i j ≤ max i j := by
  have H : ∀ n i j, i + j ≤ n → osaD xs ys i j ≤ max i j := by
    intro n
    induction n with
    | zero =>
      intro i j h
      have hi : i = 0 := by omega
      have hj : j = 0 := by omega
      subst hi; subst hj
      simp [osaD_zero_left]
    | succ n ih =>
      intro i j h
      match i, j with
      | 0, j => simp [osaD_zero_left]
      | i + 1, 0 => simp [osaD_zero_right]
      | i + 1, j + 1 =>
        rw [osaD_succ_succ, osaStep]
        have hd : osaD xs ys i j ≤ max i j := ih i j (by omega)
        have hb :
            (if xs.getD i dCh = ys.getD j dCh then osaD xs ys i j
             else 1 + min (osaD xs ys i j)
               (min (osaD xs ys (i + 1) j) (osaD xs ys i (j + 1)))) ≤
              max (i + 1) (j + 1) := by
          split
          · calc osaD xs ys i j ≤ max i j := hd
              _ ≤ max (i + 1) (j + 1) := by omega
          · have : min (osaD xs ys i j)
                (min (osaD xs ys (i + 1) j) (osaD xs ys i (j + 1))) ≤ osaD xs ys i j :=
              min_le_left _ _
            calc 1 + min (osaD xs ys i j)
                  (min (osaD xs ys (i + 1) j) (osaD xs ys i (j + 1)))
                ≤ 1 + osaD xs ys i j := by omega
              _ ≤ 1 + max i j := by omega
              _ = max (i + 1) (j + 1) := by omega
        split
        · exact le_trans (min_le_left _ _) hb
        · exact hb
  intro i j
  exact H (i + j) i j le_rfl

theorem osaD_succ_le_diag (xs ys : List Char) (i j : Nat) :
    osaD xs ys (i + 1) (j + 1) ≤ osaD xs ys i j + 1 := by
  rw [osaD_succ_succ, osaStep]
  have hb :
      (if xs.getD i dCh = ys.getD j dCh then osaD xs ys i j
       else 1 + min (osaD xs ys i j)
         (min (osaD xs ys (i + 1) j) (osaD xs ys i (j + 1)))) ≤ osaD xs ys i j + 1 := by
    split
    · omega
    · have : min (osaD xs ys i j)
          (min (osaD xs ys (i + 1) j) (osaD xs ys i (j + 1))) ≤ osaD xs ys i j :=
        min_le_left _ _
      omega
  split
  · exact le_trans (min_le_left _ _) hb
  · exact hb

theorem osaD_succ_of_eq (xs ys : List Char) (i j : Nat)
    (h : xs.getD i dCh = ys.getD j dCh) :
    osaD xs ys (i + 1) (j + 1) = osaD xs ys i j := by
  rw [osaD_succ_succ, osaStep]
  simp only [h, if_pos rfl, if_true]
  split
  · next hc =>
    obtain ⟨hi, hj, _, _⟩ := hc
    have hle : osaD xs ys i j ≤ osaD xs ys (i - 1) (j - 1) + 1 := by
      have := osaD_succ_le_diag xs ys (i - 1) (j - 1)
      have hi1 : i - 1 + 1 = i := by omega
      have hj1 : j - 1 + 1 = j := by omega
      rw [hi1, hj1] at this
      exact this
    exact min_eq_left hle
  · rfl

theorem osaD_symm (xs ys : List Char) : ∀ i j, osaD xs ys i j = osaD ys xs j i := by
  have H : ∀ n i j, i + j ≤ n → osaD xs ys i j = osaD ys xs j i := by
    intro n
    induction n with
    | zero =>
      intro i j h
      have hi : i = 0 := by omega
      have hj : j = 0 := by omega
      subst hi; subst hj
      simp [osaD_zero_left]
    | succ n ih =>
      intro i j h
      match i, j with
      | 0, 0 => simp [osaD_zero_left]
      | 0, j + 1 => simp [osaD_zero_left, osaD_zero_right]
      | i + 1, 0 => simp [osaD_zero_left, osaD_zero_right]
      | i + 1, j + 1 =>
        rw [osaD_succ_succ, osaD_succ_succ, osaStep, osaStep]
        rw [ih i j (by omega), ih (i + 1) j (by omega), ih i (j + 1) (by omega),
          ih (i - 1) (j - 1) (by omega)]
        have hcond :
            (1 ≤ i ∧ 1 ≤ j ∧ xs.getD i dCh = ys.getD (j - 1) dCh ∧
              xs.getD (i - 1) dCh = ys.getD j dCh) ↔
            (1 ≤ j ∧ 1 ≤ i ∧ ys.getD j dCh = xs.getD (i - 1) dCh ∧
              ys.getD (j - 1) dCh = xs.getD i dCh) := by
          constructor
          · rintro ⟨h1, h2, h3, h4⟩
            exact ⟨h2, h1, h4.symm, h3.symm⟩
          · rintro ⟨h1, h2, h3, h4⟩
            exact ⟨h2, h1, h4.symm, h3.symm⟩
        have hxy : (xs.getD i dCh = ys.getD j dCh) ↔ (ys.getD j dCh = xs.getD i dCh) :=
          eq_comm
        have hbase :
            (if xs.getD i dCh = ys.getD j dCh then osaD ys xs j i
             else 1 + min (osaD ys xs j i)
               (min (osaD ys xs j (i + 1)) (osaD ys xs (j + 1) i))) =
            (if ys.getD j dCh = xs.getD i dCh then osaD ys xs j i
             else 1 + min (osaD ys xs j i)
               (min (osaD ys xs (j + 1) i) (osaD ys xs j (i + 1)))) := by
          rw [if_congr hxy rfl rfl]
          split
          · rfl
          · rw [min_comm (osaD ys xs (j + 1) i) (osaD ys xs j (i + 1))]
        rw [hbase, if_congr hcond rfl rfl]
  intro i j
  exact H (i + j) i j le_rfl

theorem osa_symm (xs ys : List Char) : osa xs ys = osa ys xs :=
  osaD_symm xs ys xs.length ys.length

theorem osa_nil_left (ys : List Char) : osa [] ys = ys.length := by
  simp [osa, osaD_zero_left]

theorem osa_nil_right (xs : List Char) : osa xs [] = xs.length := by
  rw [osa_symm, osa_nil_left]

theorem osaStep_base_le (x y : Char) (d u l : Nat) :
    (if x = y then d else 1 + min d (min u l)) ≤ d + 1 := by
  split
  · omega
  · have := Nat.min_le_left d (min u l)
    omega

theorem osaD_right_zero (xs ys : List Char) (i : Nat) : osaD xs ys i 0 = i := by
  cases i with
  | zero => simp [osaD_zero_left]
  | succ i => simp [osaD_zero_right]

theorem osaD_cons_cons (c : Char) (xs ys : List Char) :
    ∀ i j, osaD (c :: xs) (c :: ys) (i + 1) (j + 1) = osaD xs ys i j := by
  have H : ∀ n i j, i + j ≤ n →
      osaD (c :: xs) (c :: ys) (i + 1) (j + 1) = osaD xs ys i j := by
    intro n
    induction n with
    | zero =>
      intro i j h
      have hi : i = 0 := by omega
      have hj : j = 0 := by omega
      subst hi; subst hj
      rw [osaD_succ_of_eq (c :: xs) (c :: ys) 0 0 (by simp)]
      simp [osaD_zero_left]
    | succ n ih =>
      intro i j h
      match i, j with
      | 0, 0 =>
        rw [osaD_succ_of_eq (c :: xs) (c :: ys) 0 0 (by simp)]
        simp [osaD_zero_left]
      | 0, j + 1 =>
        rw [osaD_succ_succ, osaStep]
        have h1 : osaD (c :: xs) (c :: ys) 1 (j + 1) = osaD xs ys 0 j := ih 0 j (by omega)
        simp only [List.getD_cons_zero, List.getD_cons_succ, osaD_zero_left, h1,
          osaD_zero_left xs ys (j + 1)]
        rw [if_neg (by rintro ⟨h0, -⟩; omega)]
        split
        · rfl
        · omega
      | i + 1, 0 =>
        rw [osaD_succ_succ, osaStep]
        have h1 : osaD (c :: xs) (c :: ys) (i + 1) 1 = osaD xs ys i 0 := ih i 0 (by omega)
        simp only [List.getD_cons_zero, List.getD_cons_succ, osaD_zero_right, h1,
          osaD_right_zero]
        rw [if_neg (by rintro ⟨-, h0, -⟩; omega)]
        split
        · rfl
        · omega
      | i + 1, j + 1 =>
        rw [osaD_succ_succ (c :: xs) (c :: ys) (i + 1) (j + 1), osaD_succ_succ xs ys i j]
        have hdiag : osaD (c :: xs) (c :: ys) (i + 1) (j + 1) = osaD xs ys i j :=
          ih i j (by omega)
        have hup : osaD (c :: xs) (c :: ys) (i + 1 + 1) (j + 1) = osaD xs ys (i + 1) j :=
          ih (i + 1) j (by omega)
        have hleft : osaD (c :: xs) (c :: ys) (i + 1) (j + 1 + 1) = osaD xs ys i (j + 1) :=
          ih i (j + 1) (by omega)
        simp only [List.getD_cons_succ, Nat.add_sub_cancel, hdiag, hup, hleft]
        match i, j with
        | 0, j =>
          rw [osaStep, osaStep]
          rw [if_neg (show ¬ (1 ≤ 0 ∧ 1 ≤ j ∧ xs.getD 0 dCh = ys.getD (j - 1) dCh ∧
              xs.getD (0 - 1) dCh = ys.getD j dCh) by rintro ⟨h0, -⟩; omega)]
          split
          · next hcond =>
            have hlb : osaD (c :: xs) (c :: ys) 0 j = j := osaD_zero_left _ _ _
            rw [hlb]
            refine min_eq_left ?_
            have hle := osaStep_base_le (xs.getD 0 dCh) (ys.getD j dCh) (osaD xs ys 0 j)
              (osaD xs ys (0 + 1) j) (osaD xs ys 0 (j + 1))
            exact le_trans hle (by simp [osaD_zero_left])
          · rfl
        | i + 1, 0 =>
          rw [osaStep, osaStep]
          rw [if_neg (show ¬ (1 ≤ i + 1 ∧ 1 ≤ 0 ∧
              xs.getD (i + 1) dCh = ys.getD (0 - 1) dCh ∧
              xs.getD (i + 1 - 1) dCh = ys.getD 0 dCh) by rintro ⟨-, h0, -⟩; omega)]
          split
          · next hcond =>
            have hlb : osaD (c :: xs) (c :: ys) (i + 1) 0 = i + 1 :=
              osaD_zero_right _ _ _
            rw [hlb]
            refine min_eq_left ?_
            have hle := osaStep_base_le (xs.getD (i + 1) dCh) (ys.getD 0 dCh)
              (osaD xs ys (i + 1) 0) (osaD xs ys (i + 1 + 1) 0) (osaD xs ys (i + 1) (0 + 1))
            exact le_trans hle (by simp [osaD_right_zero])
          · rfl
        | i + 1, j + 1 =>
          have hlb : osaD (c :: xs) (c :: ys) (i + 1) (j + 1) = osaD xs ys i j :=
            ih i j (by omega)
          simp only [List.getD_cons_succ, Nat.add_sub_cancel, hlb]
          rw [osaStep, osaStep]
          have hiff :
              (1 ≤ i + 1 + 1 ∧ 1 ≤ j + 1 + 1 ∧ xs.getD (i + 1) dCh = ys.getD j dCh ∧
                xs.getD i dCh = ys.getD (j + 1) dCh) ↔
              (1 ≤ i + 1 ∧ 1 ≤ j + 1 ∧ xs.getD (i + 1) dCh = ys.getD j dCh ∧
                xs.getD i dCh = ys.getD (j + 1) dCh) := by
            constructor
            · rintro ⟨-, -, h3, h4⟩
              exact ⟨by omega, by omega, h3, h4⟩
            · rintro ⟨-, -, h3, h4⟩
              exact ⟨by omega, by omega, h3, h4⟩
          rw [if_congr hiff rfl rfl]
  intro i j
  exact H (i + j) i j le_rfl

theorem osa_cons_cons (c : Char) (xs ys : List Char) :
    osa (c :: xs) (c :: ys) = osa xs ys := by
  simp only [osa, List.length_cons]
  exact osaD_cons_cons c xs ys xs.length ys.length

/-- The OSA matrix only looks at characters strictly below the cell
indices, so appending arbitrary tails changes no in-range cell. -/
theorem osaD_append_agree (xs ys zs ws : List Char) :
    ∀ i j, i ≤ xs.length → j ≤ ys.length →
      osaD (xs ++ zs) (ys ++ ws) i j = osaD xs ys i j := by
  have H : ∀ n i j, i + j ≤ n → i ≤ xs.length → j ≤ ys.length →
      osaD (xs ++ zs) (ys ++ ws) i j = osaD xs ys i j := by
    intro n
    induction n with
    | zero =>
      intro i j h hi hj
      have h1 : i = 0 := by omega
      have h2 : j = 0 := by omega
      subst h1; subst h2
      simp [osaD_zero_left]
    | succ n ih =>
      intro i j h hi hj
      match i, j with
      | 0, j => simp [osaD_zero_left]
      | i + 1, 0 => simp [osaD_zero_right]
      | i + 1, j + 1 =>
        rw [osaD_succ_succ, osaD_succ_succ, osaStep, osaStep]
        have hx : (xs ++ zs).getD i dCh = xs.getD i dCh :=
          List.getD_append _ _ _ _ (by omega)
        have hy : (ys ++ ws).getD j dCh = ys.getD j dCh :=
          List.getD_append _ _ _ _ (by omega)
        have hx1 : (xs ++ zs).getD (i - 1) dCh = xs.getD (i - 1) dCh :=
          List.getD_append _ _ _ _ (by omega)
        have hy1 : (ys ++ ws).getD (j - 1) dCh = ys.getD (j - 1) dCh :=
          List.getD_append _ _ _ _ (by omega)
        rw [hx, hy, hx1, hy1, ih i j (by omega) (by omega) (by omega),
          ih (i + 1) j (by omega) (by omega) (by omega),
          ih i (j + 1) (by omega) (by omega) (by omega),
          ih (i - 1) (j - 1) (by omega) (by omega) (by omega)]
  intro i j hi hj
  exact H (i + j) i j le_rfl hi hj

theorem getD_append_length (xs zs : List Char) (c d : Char) :
    (xs ++ c :: zs).getD xs.length d = c := by
  induction xs with
  | nil => simp
  | cons a xs ih => simpa using ih

theorem osa_append_last (xs ys : List Char) (c : Char) :
    osa (xs ++ [c]) (ys ++ [c]) = osa xs ys := by
  have hx : (xs ++ [c]).getD xs.length dCh = c := getD_append_length xs [] c dCh
  have hy : (ys ++ [c]).getD ys.length dCh = c := getD_append_length ys [] c dCh
  have hlen : (xs ++ [c]).length = xs.length + 1 := by simp
  have hlen2 : (ys ++ [c]).length = ys.length + 1 := by simp
  unfold osa
  rw [hlen, hlen2, osaD_succ_of_eq _ _ xs.length ys.length (by rw [hx, hy]),
    osaD_append_agree xs ys [c] [c] xs.length ys.length le_rfl le_rfl]

theorem osa_append_suffix (s : List Char) : ∀ xs ys, osa (xs ++ s) (ys ++ s) = osa xs ys := by
  induction s with
  | nil => intro xs ys; simp
  | cons a s ih =>
    intro xs ys
    rw [show xs ++ a :: s = (xs ++ [a]) ++ s by simp,
      show ys ++ a :: s = (ys ++ [a]) ++ s by simp, ih, osa_append_last]

theorem osa_prepend (p : List Char) : ∀ xs ys, osa (p ++ xs) (p ++ ys) = osa xs ys := by
  induction p with
  | nil => intro xs ys; simp
  | cons a p ih =>
    intro xs ys
    simp only [List.cons_append]
    rw [osa_cons_cons, ih]

theorem osa_self (xs : List Char) : osa xs xs = 0 := by
  have h := osa_append_suffix xs [] []
  have h0 : osa ([] : List Char) ([] : List Char) = 0 := by
    simp [osa, osaD_zero_left]
  simpa [h0] using h

/-! The SymSpell-ported distance kernel of `damerauSymSpell.ts`.

`damerauDistance` spreads both strings into code-point arrays, swaps
them so the shorter is first, strips the common suffix then the common
prefix (`prefixSuffixPrep`), and runs a two-row dynamic program
(`distanceInternal`) over the remaining segments.  The module-level
`Uint16Array` scratch rows are embedded as `List Nat` arguments whose
stores are taken modulo 2^16 (a `Uint16Array` write truncates); the
rows are sized to the reduced second length, which is the only region
the loops read or write, and the initial contents of the
`prevChar1Costs` row are irrelevant (the transposition guard `i !== 0`
keeps row 0 from consuming them), so the embedding passes an arbitrary
initial row and instantiates it with zeroes. -/

/-- The `NULL_CHAR = '\x00'` sentinel of damerauSymSpell.ts. -/
def NULL_CHAR : Char := '\x00'

/-- The `for (j = 0; j < len2;) char1Costs[j] = ++j` initialisation:
entry `j` holds `j + 1`, truncated by the `Uint16Array` store. -/
def initRow (n : Nat) : List Nat := (List.range n).map (fun j => (j + 1) % 65536)

/-- One iteration body of the inner loop of `distanceInternal`:
`currentCost` starts as the diagonal (`leftCharCost` on entry), and on a
character mismatch is lowered to the minimum with `aboveCharCost` and
the refreshed `leftCharCost`, incremented, and possibly replaced by the
transposition cost `thisTransCost + 1` under the source's guard. -/
def dpCell (ch1 pch1 pc2 c2 : Char) (i j : Nat) (diag above left ttc : Nat) : Nat :=
  if ch1 = c2 then diag
  else
    let m1 := if above < diag then above else diag
    let m2 := if left < m1 then left else m1
    if i ≠ 0 ∧ j ≠ 0 ∧ ch1 = pc2 ∧ pch1 = c2 ∧ ttc + 1 < m2 + 1 then ttc + 1
    else m2 + 1

/-- The inner `for (j = 0; j < len2; ++j)` loop of `distanceInternal`,
walking the remaining characters of the second segment together with
the remaining entries of the two scratch rows.  Scalar JS variables
(`leftCharCost`, `aboveCharCost`, `nextTransCost`, `prevChar2`,
`currentCost`) are threaded untruncated, exactly as in the source;
array stores are truncated modulo 2^16.  Returns the rewritten suffixes
of `char1Costs` and `prevChar1Costs` plus the final `currentCost`. -/
def innerGo (ch1 pch1 : Char) (i : Nat) :
    Nat → List Char → List Nat → List Nat → Nat → Nat → Nat → Char → Nat →
    List Nat × List Nat × Nat
  | _, [], _, _, _, _, _, _, cc => ([], [], cc)
  | _, _ :: _, [], _, _, _, _, _, cc => ([], [], cc)
  | _, _ :: _, _ :: _, [], _, _, _, _, cc => ([], [], cc)
  | j, c2 :: cs2, lc :: lcs, lp :: lps, left, above, ntc, pc2, _ =>
    let cc1 := left
    let cc2 := dpCell ch1 pch1 pc2 c2 i j cc1 above lc ntc
    let r := innerGo ch1 pch1 i (j + 1) cs2 lcs lps lc cc2 lp c2 cc2
    (cc2 % 65536 :: r.1, cc1 % 65536 :: r.2.1, r.2.2)

/-- The outer `for (let i = 0; i < len1; ++i)` loop of
`distanceInternal`: one `innerGo` pass per character of the first
segment, threading `char1` / `prevChar1` and the scratch rows. -/
def rowsGo (seg2 : List Char) :
    List Char → Nat → Char → List Nat → List Nat → Nat → Nat
  | [], _, _, _, _, cc => cc
  | ch :: rest, i, pch, c1row, prow, cc =>
    let r := innerGo ch pch i 0 seg2 c1row prow i i 0 NULL_CHAR cc
    rowsGo seg2 rest (i + 1) ch r.1 r.2.1 r.2.2

/-- `distanceInternal` of damerauSymSpell.ts, on the post-strip
segments (`chars1[start .. start+len1)` and
`chars2[start .. start+len2)` are passed as lists). -/
def distanceInternal (seg1 seg2 : List Char) (prow0 : List Nat) : Nat :=
  rowsGo seg2 seg1 0 NULL_CHAR (initRow seg2.length) prow0 0

/-- `prefixSuffixPrep` of damerauSymSpell.ts: first the common-suffix
loop (which stops when `len1` hits 0), then the common-prefix loop
(which stops at `len1`); returns `(len1, len2, start)`. -/
def prefixSuffixPrep (c1 c2 : List Char) : Nat × Nat × Nat :=
  let k := commonPrefixLen c1.reverse c2.reverse
  let l1 := c1.length - k
  let l2 := c2.length - k
  let start := commonPrefixLen (c1.take l1) (c2.take l1)
  (l1 - start, l2 - start, start)

/-- Body of `damerauDistance` after the swap that makes `c1` the
shorter operand. -/
def damerauCore (c1 c2 : List Char) : Nat :=
  if c1.length = 0 then c2.length
  else
    let p := prefixSuffixPrep c1 c2
    if p.1 = 0 then p.2.1
    else
      distanceInternal ((c1.drop p.2.2).take p.1) ((c2.drop p.2.2).take p.2.1)
        (List.replicate p.2.1 0)

/-- `damerauDistance` of damerauSymSpell.ts (the exported entry point):
spread to code points, swap so the shorter comes first, then run the
core. -/
def damerauDistance (str1 str2 : String) : Nat :=
  if str1.data.length > str2.data.length then damerauCore str2.data str1.data
  else damerauCore str1.data str2.data

example : damerauDistance "CA" "ABC" = 3 := by decide
example : damerauDistance "an act" "a cat" = 2 := by decide
example : damerauDistance "ab" "ba" = 1 := by decide
example : damerauDistance "hostipal" "hospital" = 2 := by decide

/-- `char1Costs` after processing row `i`: entry `j` holds the OSA
matrix value at `(i, j + 1)`. -/
def osaRow (xs ys : List Char) (i : Nat) : List Nat :=
  (List.range ys.length).map (fun j => osaD xs ys i (j + 1))

/-- `prevChar1Costs` after processing row `i`: entry `j` holds the OSA
matrix value at `(i, j)`. -/
def osaProw (xs ys : List Char) (i : Nat) : List Nat :=
  (List.range ys.length).map (fun j => osaD xs ys i j)

theorem getD_eq_getElem (l : List Char) (d : Char) (j : Nat) (h : j < l.length) :
    l.getD j d = l[j] := by
  simp [List.getD_eq_getElem?_getD, List.getElem?_eq_getElem h]

theorem mapRange_drop_cons (f : Nat → Nat) (n j : Nat) (h : j < n) :
    ((List.range n).map f).drop j = f j :: ((List.range n).map f).drop (j + 1) := by
  have hlen : j < ((List.range n).map f).length := by simpa using h
  rw [List.drop_eq_getElem_cons hlen]
  congr 1
  simp

theorem osaRow_drop_cons (xs ys : List Char) (i j : Nat) (h : j < ys.length) :
    (osaRow xs ys i).drop j = osaD xs ys i (j + 1) :: (osaRow xs ys i).drop (j + 1) :=
  mapRange_drop_cons _ ys.length j h

theorem osaProw_drop_cons (xs ys : List Char) (i j : Nat) (h : j < ys.length) :
    (osaProw xs ys i).drop j = osaD xs ys i j :: (osaProw xs ys i).drop (j + 1) :=
  mapRange_drop_cons _ ys.length j h

theorem drop_cons_getD (l : List Char) (d : Char) (j : Nat) (h : j < l.length) :
    l.drop j = l.getD j d :: l.drop (j + 1) := by
  rw [List.drop_eq_getElem_cons h, getD_eq_getElem l d j h]

theorem ite_lt_eq_min (a b : Nat) : (if a < b then a else b) = min a b := by
  split <;> omega

/-- The iteration body computes exactly one `osaStep` cell, given that
the incoming scalars carry the values the source's data flow assigns
them.  The code's `thisTransCost` (`lbC`) and the matrix lookback
(`lbS`) need only agree away from the guarded boundary, and the `j = 0`
entry value `i` for `aboveCharCost` stands in for the true boundary
value `i + 1` without changing the minimum. -/
theorem dpCell_eq (x pchC pc2C y pyj pxi : Char) (i j diag up left lbC lbS above : Nat)
    (hab : above = if j = 0 then i else up)
    (h0 : j = 0 → diag = i ∧ up = i + 1)
    (hch : i ≠ 0 → j ≠ 0 → pc2C = pyj ∧ pchC = pxi)
    (hlb : i ≠ 0 → j ≠ 0 → lbC = lbS)
    (hdle : i ≠ 0 → j ≠ 0 → diag ≤ lbS + 1) :
    dpCell x pchC pc2C y i j diag above left lbC =
      osaStep x y pyj pxi diag up left lbS i j := by
  rw [dpCell, osaStep]
  rcases Nat.eq_zero_or_pos j with hj0 | hjpos
  · subst hj0
    obtain ⟨hd, hu⟩ := h0 rfl
    have ha : above = i := by simpa using hab
    rw [if_neg (show ¬ (1 ≤ i ∧ 1 ≤ 0 ∧ x = pyj ∧ pxi = y) by rintro ⟨-, h, -⟩; omega)]
    by_cases hxy : x = y
    · rw [if_pos hxy, if_pos hxy]
    · rw [if_neg hxy, if_neg hxy,
        if_neg (show ¬ (i ≠ 0 ∧ (0 : Nat) ≠ 0 ∧ x = pc2C ∧ pchC = y ∧
          lbC + 1 < (if left < (if above < diag then above else diag) then left
            else if above < diag then above else diag) + 1) by
          rintro ⟨-, h, -⟩; omega)]
      split_ifs <;> omega
  · have hjne : j ≠ 0 := by omega
    have ha : above = up := by rw [hab, if_neg hjne]
    by_cases hi0 : i = 0
    · rw [if_neg (show ¬ (1 ≤ i ∧ 1 ≤ j ∧ x = pyj ∧ pxi = y) by
        rintro ⟨h, -⟩; omega)]
      by_cases hxy : x = y
      · rw [if_pos hxy, if_pos hxy]
      · rw [if_neg hxy, if_neg hxy,
          if_neg (show ¬ (i ≠ 0 ∧ j ≠ 0 ∧ x = pc2C ∧ pchC = y ∧
            lbC + 1 < (if left < (if above < diag then above else diag) then left
              else if above < diag then above else diag) + 1) by
            rintro ⟨h, -⟩; exact h hi0)]
        split_ifs <;> omega
    · obtain ⟨hc2, hpch⟩ := hch hi0 hjne
      rw [hc2, hpch]
      have hlb' : lbC = lbS := hlb hi0 hjne
      have hdle' : diag ≤ lbS + 1 := hdle hi0 hjne
      by_cases hc : x = pyj ∧ pxi = y
      · rw [if_pos (show 1 ≤ i ∧ 1 ≤ j ∧ x = pyj ∧ pxi = y from
          ⟨by omega, by omega, hc.1, hc.2⟩)]
        by_cases hxy : x = y
        · rw [if_pos hxy, if_pos hxy]
          exact (min_eq_left hdle').symm
        · rw [if_neg hxy, if_neg hxy]
          have hiff : (i ≠ 0 ∧ j ≠ 0 ∧ x = pyj ∧ pxi = y ∧
              lbC + 1 < (if left < (if above < diag then above else diag) then left
                else if above < diag then above else diag) + 1) ↔
              (lbC + 1 < (if left < (if above < diag then above else diag) then left
                else if above < diag then above else diag) + 1) := by
            constructor
            · rintro ⟨-, -, -, -, h5⟩; exact h5
            · intro h5; exact ⟨hi0, hjne, hc.1, hc.2, h5⟩
          rw [if_congr hiff rfl rfl]
          split_ifs <;> omega
      · rw [if_neg (show ¬ (1 ≤ i ∧ 1 ≤ j ∧ x = pyj ∧ pxi = y) by
          rintro ⟨-, -, h3, h4⟩; exact hc ⟨h3, h4⟩)]
        by_cases hxy : x = y
        · rw [if_pos hxy, if_pos hxy]
        · rw [if_neg hxy, if_neg hxy,
            if_neg (show ¬ (i ≠ 0 ∧ j ≠ 0 ∧ x = pyj ∧ pxi = y ∧
              lbC + 1 < (if left < (if above < diag then above else diag) then left
                else if above < diag then above else diag) + 1) by
              rintro ⟨-, -, h3, h4, -⟩; exact hc ⟨h3, h4⟩)]
          split_ifs <;> omega

/-- Invariant of the inner loop: entering iteration `j` of row `i` with
the scratch-row suffixes and scalar variables holding the OSA matrix
values dictated by the source's data flow, the loop rewrites the row
suffixes to the row-`i+1` / row-`i` values and returns the final cost
`osaD xs ys (i+1) ys.length`. -/
theorem innerGo_spec (xs ys : List Char) (hU : max xs.length ys.length < 65536)
    (i : Nat) (hi : i < xs.length) (pch : Char)
    (hpch : i ≠ 0 → pch = xs.getD (i - 1) dCh) :
    ∀ m j, j + m = ys.length →
    ∀ lps : List Nat, lps.length = m →
      (i ≠ 0 → lps = (osaProw xs ys (i - 1)).drop j) →
    ∀ ntc : Nat, (i ≠ 0 → j ≠ 0 → ntc = osaD xs ys (i - 1) (j - 1)) →
    ∀ pc2 : Char, (j ≠ 0 → pc2 = ys.getD (j - 1) dCh) →
    ∀ above : Nat, above = (if j = 0 then i else osaD xs ys (i + 1) j) →
    ∀ cc : Nat, (j = ys.length → cc = osaD xs ys (i + 1) ys.length) →
      innerGo (xs.getD i dCh) pch i j (ys.drop j) ((osaRow xs ys i).drop j) lps
          (osaD xs ys i j) above ntc pc2 cc =
        ((osaRow xs ys (i + 1)).drop j, (osaProw xs ys i).drop j,
          osaD xs ys (i + 1) ys.length) := by
  intro m
  induction m with
  | zero =>
    intro j hj lps hlen hlps ntc hntc pc2 hpc2 above habove cc hcc
    have hjn : j = ys.length := by omega
    have h1 : ys.drop j = [] := by rw [hjn]; simp
    have h2 : (osaRow xs ys i).drop j = [] := by
      rw [hjn]
      apply List.drop_eq_nil_of_le
      simp [osaRow]
    have h3 : lps = [] := List.eq_nil_of_length_eq_zero hlen
    have h4 : (osaRow xs ys (i + 1)).drop j = [] := by
      rw [hjn]
      apply List.drop_eq_nil_of_le
      simp [osaRow]
    have h5 : (osaProw xs ys i).drop j = [] := by
      rw [hjn]
      apply List.drop_eq_nil_of_le
      simp [osaProw]
    rw [h1, h2, h3, h4, h5, hcc hjn]
    simp [innerGo]
  | succ m ih =>
    intro j hj lps hlen hlps ntc hntc pc2 hpc2 above habove cc hcc
    have hjlt : j < ys.length := by omega
    have hy : ys.drop j = ys.getD j dCh :: ys.drop (j + 1) :=
      drop_cons_getD ys dCh j hjlt
    have hrow : (osaRow xs ys i).drop j =
        osaD xs ys i (j + 1) :: (osaRow xs ys i).drop (j + 1) :=
      mapRange_drop_cons _ ys.length j hjlt
    obtain ⟨lp, lps', rfl⟩ : ∃ lp lps', lps = lp :: lps' := by
      cases lps with
      | nil => simp at hlen
      | cons a l => exact ⟨a, l, rfl⟩
    have hlen' : lps'.length = m := by simpa using hlen
    have hbound : ∀ a b, a ≤ xs.length → b ≤ ys.length → osaD xs ys a b < 65536 := by
      intro a b hA hB
      have := osaD_le_max xs ys a b
      omega
    have hcell : dpCell (xs.getD i dCh) pch pc2 (ys.getD j dCh) i j
        (osaD xs ys i j) above (osaD xs ys i (j + 1)) ntc =
        osaD xs ys (i + 1) (j + 1) := by
      rw [dpCell_eq (xs.getD i dCh) pch pc2 (ys.getD j dCh)
        (ys.getD (j - 1) dCh) (xs.getD (i - 1) dCh) i j
        (osaD xs ys i j) (osaD xs ys (i + 1) j) (osaD xs ys i (j + 1))
        ntc (osaD xs ys (i - 1) (j - 1)) above habove
        (fun hj0 => by
          subst hj0
          exact ⟨osaD_right_zero xs ys i, osaD_zero_right xs ys i⟩)
        (fun hi0 hj0 => ⟨hpc2 hj0, hpch hi0⟩)
        hntc
        (fun hi0 hj0 => by
          have h := osaD_succ_le_diag xs ys (i - 1) (j - 1)
          have e1 : i - 1 + 1 = i := by omega
          have e2 : j - 1 + 1 = j := by omega
          rw [e1, e2] at h
          exact h)]
      exact (osaD_succ_succ xs ys i j).symm
    have hntcNext : i ≠ 0 → j + 1 ≠ 0 → lp = osaD xs ys (i - 1) (j + 1 - 1) := by
      intro hne _
      have h := hlps hne
      have hd : (osaProw xs ys (i - 1)).drop j =
          osaD xs ys (i - 1) j :: (osaProw xs ys (i - 1)).drop (j + 1) :=
        mapRange_drop_cons _ ys.length j hjlt
      rw [hd] at h
      have := (List.cons_eq_cons.mp h).1
      simpa using this
    have hlpsNext : i ≠ 0 → lps' = (osaProw xs ys (i - 1)).drop (j + 1) := by
      intro hne
      have h := hlps hne
      have hd : (osaProw xs ys (i - 1)).drop j =
          osaD xs ys (i - 1) j :: (osaProw xs ys (i - 1)).drop (j + 1) :=
        mapRange_drop_cons _ ys.length j hjlt
      rw [hd] at h
      exact (List.cons_eq_cons.mp h).2
    have hrec := ih (j + 1) (by omega) lps' hlen' hlpsNext lp hntcNext
      (ys.getD j dCh) (fun _ => by simp)
      (osaD xs ys (i + 1) (j + 1)) (by simp)
      (osaD xs ys (i + 1) (j + 1)) (fun hj1 => by rw [hj1])
    rw [hy, hrow]
    simp only [innerGo, hcell, hrec]
    have hm1 : osaD xs ys (i + 1) (j + 1) % 65536 = osaD xs ys (i + 1) (j + 1) :=
      Nat.mod_eq_of_lt (hbound (i + 1) (j + 1) (by omega) (by omega))
    have hm2 : osaD xs ys i j % 65536 = osaD xs ys i j :=
      Nat.mod_eq_of_lt (hbound i j (by omega) (by omega))
    rw [hm1, hm2, osaRow_drop_cons xs ys (i + 1) j hjlt,
      osaProw_drop_cons xs ys i j hjlt]

/-- Invariant of the outer loop: processing rows `i, i+1, …` with the
scratch rows holding the row-`i` matrix values yields the final matrix
corner. -/
theorem rowsGo_spec (xs ys : List Char) (hU : max xs.length ys.length < 65536)
    (hn1 : 1 ≤ xs.length) (hn2 : 1 ≤ ys.length) :
    ∀ m i, i + m = xs.length →
    ∀ pch : Char, (i ≠ 0 → pch = xs.getD (i - 1) dCh) →
    ∀ prow : List Nat, prow.length = ys.length →
      (i ≠ 0 → prow = osaProw xs ys (i - 1)) →
    ∀ cc : Nat, (i ≠ 0 → cc = osaD xs ys i ys.length) →
      rowsGo ys (xs.drop i) i pch (osaRow xs ys i) prow cc =
        osaD xs ys xs.length ys.length := by
  intro m
  induction m with
  | zero =>
    intro i hi pch hpch prow hplen hprow cc hcc
    have hin : i = xs.length := by omega
    have hd : xs.drop i = [] := by rw [hin]; simp
    rw [hd]
    simp only [rowsGo]
    rw [hcc (by omega), hin]
  | succ m ih =>
    intro i hi pch hpch prow hplen hprow cc hcc
    have hilt : i < xs.length := by omega
    have hdx : xs.drop i = xs.getD i dCh :: xs.drop (i + 1) := drop_cons_getD xs dCh i hilt
    have hinner := innerGo_spec xs ys hU i hilt pch hpch ys.length 0 (by omega) prow hplen
      (fun hne => by rw [hprow hne, List.drop_zero])
      0 (fun _ h => absurd rfl h)
      NULL_CHAR (fun h => absurd rfl h)
      i (by simp)
      cc (fun h => absurd h (by omega))
    rw [List.drop_zero, List.drop_zero, List.drop_zero, List.drop_zero,
      osaD_right_zero] at hinner
    rw [hdx]
    simp only [rowsGo, hinner]
    exact ih (i + 1) (by omega) (xs.getD i dCh) (fun _ => by simp)
      (osaProw xs ys i) (by simp [osaProw]) (fun _ => by simp)
      (osaD xs ys (i + 1) ys.length) (fun _ => rfl)

theorem distanceInternal_spec (seg1 seg2 : List Char)
    (hU : max seg1.length seg2.length < 65536)
    (h1 : 1 ≤ seg1.length) (h2 : 1 ≤ seg2.length)
    (prow0 : List Nat) (hp : prow0.length = seg2.length) :
    distanceInternal seg1 seg2 prow0 = osa seg1 seg2 := by
  have hinit : initRow seg2.length = osaRow seg1 seg2 0 := by
    unfold initRow osaRow
    apply List.map_congr_left
    intro a ha
    have halt : a < seg2.length := List.mem_range.mp ha
    rw [osaD_zero_left]
    exact Nat.mod_eq_of_lt (by omega)
  have h := rowsGo_spec seg1 seg2 hU h1 h2 seg1.length 0 (by omega) NULL_CHAR
    (fun h => absurd rfl h) prow0 hp (fun h => absurd rfl h) 0 (fun h => absurd rfl h)
  rw [List.drop_zero] at h
  unfold distanceInternal osa
  rw [hinit]
  exact h

theorem damerauCore_eq_osa (c1 c2 : List Char) (hle : c1.length ≤ c2.length)
    (hU : c2.length < 65536) :
    damerauCore c1 c2 = osa c1 c2 := by
  unfold damerauCore
  by_cases hnil : c1.length = 0
  · rw [if_pos hnil]
    have : c1 = [] := List.eq_nil_of_length_eq_zero hnil
    rw [this, osa_nil_left]
  · rw [if_neg hnil]
    unfold prefixSuffixPrep
    set k := commonPrefixLen c1.reverse c2.reverse with hk
    set l1 := c1.length - k with hl1
    set l2 := c2.length - k with hl2
    set start := commonPrefixLen (c1.take l1) (c2.take l1) with hstart
    have hkle1 : k ≤ c1.length := by
      have := commonPrefixLen_le_left c1.reverse c2.reverse
      simpa using this
    have hkle2 : k ≤ c2.length := by
      have := commonPrefixLen_le_right c1.reverse c2.reverse
      simpa using this
    have hsle : start ≤ l1 := by
      have h := commonPrefixLen_le_left (c1.take l1) (c2.take l1)
      have : (c1.take l1).length = l1 := by
        rw [List.length_take]
        omega
      omega
    have hl1le : l1 ≤ l2 := by omega
    -- the stripped common suffix is shared
    have hsuffix : c1.drop l1 = c2.drop l2 := by
      have htk : c1.reverse.take k = c2.reverse.take k := by
        have h := commonPrefixLen_take_eq c1.reverse c2.reverse
        exact h
      have e1 : (List.take k c1.reverse).reverse = c1.drop (c1.length - k) := by
        have := @List.reverse_take Char c1.reverse k
        simpa using this
      have e2 : (List.take k c2.reverse).reverse = c2.drop (c2.length - k) := by
        have := @List.reverse_take Char c2.reverse k
        simpa using this
      rw [← e1, ← e2, htk]
    -- the stripped common prefix is shared
    have hprefix : c1.take start = c2.take start := by
      have h := commonPrefixLen_take_eq (c1.take l1) (c2.take l1)
      rw [List.take_take, List.take_take] at h
      have e : min start l1 = start := by omega
      rw [e] at h
      exact h
    -- decomposition of both operands around the strips
    have hdec1 : c1 = c1.take start ++ (c1.drop start).take (l1 - start) ++ c1.drop l1 := by
      have h1 : c1.take l1 ++ c1.drop l1 = c1 := List.take_append_drop l1 c1
      have h2 : (c1.take l1).take start ++ (c1.take l1).drop start = c1.take l1 :=
        List.take_append_drop start (c1.take l1)
      have h3 : (c1.take l1).take start = c1.take start := by
        rw [List.take_take]
        congr 1
        omega
      have h4 : (c1.take l1).drop start = (c1.drop start).take (l1 - start) :=
        List.drop_take l1 start c1
      have hgoal : c1.take start ++ (c1.drop start).take (l1 - start) ++ c1.drop l1 = c1 := by
        rw [← h3, ← h4, h2, h1]
      exact hgoal.symm
    have hdec2 : c2 = c2.take start ++ (c2.drop start).take (l2 - start) ++ c2.drop l2 := by
      have h1 : c2.take l2 ++ c2.drop l2 = c2 := List.take_append_drop l2 c2
      have h2 : (c2.take l2).take start ++ (c2.take l2).drop start = c2.take l2 :=
        List.take_append_drop start (c2.take l2)
      have h3 : (c2.take l2).take start = c2.take start := by
        rw [List.take_take]
        congr 1
        omega
      have h4 : (c2.take l2).drop start = (c2.drop start).take (l2 - start) :=
        List.drop_take l2 start c2
      have hgoal : c2.take start ++ (c2.drop start).take (l2 - start) ++ c2.drop l2 = c2 := by
        rw [← h3, ← h4, h2, h1]
      exact hgoal.symm
    have hseg1len : ((c1.drop start).take (l1 - start)).length = l1 - start := by
      rw [List.length_take, List.length_drop]
      omega
    have hseg2len : ((c2.drop start).take (l2 - start)).length = l2 - start := by
      rw [List.length_take, List.length_drop]
      omega
    -- stripping preserves the OSA distance
    have hosa : osa c1 c2 =
        osa ((c1.drop start).take (l1 - start)) ((c2.drop start).take (l2 - start)) := by
      conv_lhs => rw [hdec1, hdec2]
      rw [← hprefix] at hdec2
      rw [show c2.take start ++ (c2.drop start).take (l2 - start) ++ c2.drop l2 =
          c1.take start ++ ((c2.drop start).take (l2 - start) ++ c2.drop l2) by
        rw [← hprefix, List.append_assoc],
        show c1.take start ++ (c1.drop start).take (l1 - start) ++ c1.drop l1 =
          c1.take start ++ ((c1.drop start).take (l1 - start) ++ c1.drop l1) by
        rw [List.append_assoc],
        osa_prepend, hsuffix, osa_append_suffix]
    by_cases hz : l1 - start = 0
    · rw [if_pos hz]
      have hseg1nil : (c1.drop start).take (l1 - start) = [] := by
        rw [hz]
        simp
      rw [hosa, hseg1nil, osa_nil_left, hseg2len]
    · rw [if_neg hz]
      rw [distanceInternal_spec ((c1.drop start).take (l1 - start))
        ((c2.drop start).take (l2 - start))
        (by rw [hseg1len, hseg2len]; omega)
        (by omega)
        (by rw [hseg2len]; omega)
        (List.replicate (l2 - start) 0) (by simp [hseg2len])]
      rw [hosa]

/-- `damerauDistance` computes the restricted Damerau-Levenshtein
(optimal string alignment) distance on code points, for operands short
enough that the `Uint16Array` cost buffers cannot truncate. -/
theorem damerauDistance_eq_osa (a b : String) (ha : a.length < 65536)
    (hb : b.length < 65536) :
    damerauDistance a b = osa a.data b.data := by
  have hla : a.data.length = a.length := rfl
  have hlb : b.data.length = b.length := rfl
  unfold damerauDistance
  split
  · next hgt =>
    rw [damerauCore_eq_osa b.data a.data (by omega) (by omega), osa_symm]
  · next hgt =>
    rw [damerauCore_eq_osa a.data b.data (by omega) (by omega)]

/-- One edit operation of the unrestricted classical
Damerau-Levenshtein distance: substitution, insertion, deletion, or
adjacent transposition, anywhere in the list. -/
inductive DLStep : List Char → List Char → Prop where
  | substOp (pre suf : List Char) (c d : Char) :
      DLStep (pre ++ c :: suf) (pre ++ d :: suf)
  | insertOp (pre suf : List Char) (c : Char) :
      DLStep (pre ++ suf) (pre ++ c :: suf)
  | deleteOp (pre suf : List Char) (c : Char) :
      DLStep (pre ++ c :: suf) (pre ++ suf)
  | transpOp (pre suf : List Char) (c d : Char) :
      DLStep (pre ++ c :: d :: suf) (pre ++ d :: c :: suf)

/-- `DLn n a b`: `b` is reachable from `a` in exactly `n` edit
operations. -/
inductive DLn : Nat → List Char → List Char → Prop where
  | refl (a : List Char) : DLn 0 a a
  | step {n : Nat} {a b c : List Char} : DLStep a b → DLn n b c → DLn (n + 1) a c

/-- The unrestricted classical Damerau-Levenshtein distance: the least
number of substitutions, insertions, deletions and adjacent
transpositions (each of cost 1) transforming `a` into `b`. -/
noncomputable def dlDist (a b : List Char) : Nat := sInf {n | DLn n a b}

theorem DLn_zero {a b : List Char} (h : DLn 0 a b) : a = b := by
  cases h
  rfl

theorem dln_two_CA_ABC : DLn 2 ['C', 'A'] ['A', 'B', 'C'] := by
  have s1 : DLStep ['C', 'A'] ['A', 'C'] := DLStep.transpOp [] [] 'C' 'A'
  have s2 : DLStep ['A', 'C'] ['A', 'B', 'C'] := DLStep.insertOp ['A'] ['C'] 'B'
  exact DLn.step s1 (DLn.step s2 (DLn.refl _))

theorem DLStep_inv {a b : List Char} (h : DLStep a b) :
    (∃ pre suf c d, a = pre ++ c :: suf ∧ b = pre ++ d :: suf) ∨
    (∃ pre suf c, a = pre ++ suf ∧ b = pre ++ c :: suf) ∨
    (∃ pre suf c, a = pre ++ c :: suf ∧ b = pre ++ suf) ∨
    (∃ pre suf c d, a = pre ++ c :: d :: suf ∧ b = pre ++ d :: c :: suf) := by
  cases h with
  | substOp pre suf c d => exact Or.inl ⟨pre, suf, c, d, rfl, rfl⟩
  | insertOp pre suf c => exact Or.inr (Or.inl ⟨pre, suf, c, rfl, rfl⟩)
  | deleteOp pre suf c => exact Or.inr (Or.inr (Or.inl ⟨pre, suf, c, rfl, rfl⟩))
  | transpOp pre suf c d => exact Or.inr (Or.inr (Or.inr ⟨pre, suf, c, d, rfl, rfl⟩))

theorem no_single_step_CA_ABC : ¬ DLStep ['C', 'A'] ['A', 'B', 'C'] := by
  intro h
  rcases DLStep_inv h with ⟨pre, suf, c, d, h1, h2⟩ | ⟨pre, suf, c, h1, h2⟩ |
    ⟨pre, suf, c, h1, h2⟩ | ⟨pre, suf, c, d, h1, h2⟩
  · have e1 := congrArg List.length h1
    have e2 := congrArg List.length h2
    simp [List.length_append] at e1 e2
    omega
  · have hsub : List.Sublist ['C', 'A'] ['A', 'B', 'C'] := by
      rw [h1, h2]
      exact List.Sublist.append_left (List.sublist_cons_self c suf) pre
    exact absurd hsub (by decide)
  · have e1 := congrArg List.length h1
    have e2 := congrArg List.length h2
    simp [List.length_append] at e1 e2
    omega
  · have e1 := congrArg List.length h1
    have e2 := congrArg List.length h2
    simp [List.length_append] at e1 e2
    omega

theorem dlDist_CA_ABC : dlDist ['C', 'A'] ['A', 'B', 'C'] = 2 := by
  apply le_antisymm
  · exact Nat.sInf_le dln_two_CA_ABC
  · refine le_csInf ⟨2, dln_two_CA_ABC⟩ ?_
    intro n hn
    match n, hn with
    | 0, hn =>
      have := DLn_zero hn
      simp [List.cons_eq_cons] at this
    | 1, hn =>
      cases hn with
      | step hstep hrest =>
        have := DLn_zero hrest
        subst this
        exact absurd hstep no_single_step_CA_ABC
    | n + 2, _ => omega


/-! The BK-tree of bktree.ts: a pivot string (`root`, null for the
empty tree) and a map from Levenshtein distance to child subtree
(`children`, a `Record<number, BkTree>` embedded as an association
list with at most one entry per key). -/

inductive BkTree where
  | mk (root : Option String) (children : List (Nat × BkTree))

def BkTree.root : BkTree → Option String
  | ⟨r, _⟩ => r

def BkTree.children : BkTree → List (Nat × BkTree)
  | ⟨_, c⟩ => c

mutual

/-- `addWord` of bktree.ts: an empty tree adopts the term as root;
otherwise the term descends along the edge labelled with its
Levenshtein distance from the root, creating a fresh one-node subtree
(`new BkTree([term])`) when that edge is vacant, and doing nothing when
the child at that edge already stores the term. -/
def BkTree.addWord : BkTree → String → BkTree
  | ⟨none, cs⟩, term => ⟨some term, cs⟩
  | ⟨some r, cs⟩, term => ⟨some r, insertChild term (levD r term) cs⟩

/-- The `children[dist]` lookup-and-update of `addWord`, walking the
association list. -/
def insertChild (term : String) (d : Nat) : List (Nat × BkTree) → List (Nat × BkTree)
  | [] => [(d, ⟨some term, []⟩)]
  | (d2, c) :: rest =>
    if d2 = d then
      if c.root = some term then (d2, c) :: rest
      else (d2, BkTree.addWord c term) :: rest
    else (d2, c) :: insertChild term d rest

end

/-- `addWords` of bktree.ts. -/
def BkTree.addWords (t : BkTree) (terms : List String) : BkTree :=
  terms.foldl BkTree.addWord t

/-- The bktree.ts constructor: `words.pop()` takes the last element as
the root (null for an empty list) and the remaining words are inserted
in order. -/
def BkTree.ofList (ws : List String) : BkTree :=
  match ws.getLast? with
  | none => ⟨none, []⟩
  | some last => BkTree.addWords ⟨some last, []⟩ ws.dropLast

/-- `children[i]` for the loop variable `i` of `#query`, which is a JS
number that can be fractional or negative: only an exact numeric match
with an integer key finds a child. -/
def lookupChild (i : ℚ) (cs : List (Nat × BkTree)) : Option BkTree :=
  (cs.find? (fun p => ((p.1 : ℚ) = i : Bool))).map Prod.snd

/-- Number of iterations of `for (let i = min; i <= max; ++i)` with
`min = dist - maxDist` and `max = dist + maxDist`: none when the range
is empty, else `⌊max - min⌋ + 1`. -/
def querySteps (r : ℚ) : Nat := if r < 0 then 0 else (⌊2 * r⌋).toNat + 1

/-- The successive values of the loop variable `i` of `#query`. -/
def iterVals (dist : Nat) (r : ℚ) : List ℚ :=
  (List.range (querySteps r)).map (fun (t : Nat) => (dist : ℚ) - r + (t : ℚ))

/-- `#query` of bktree.ts, returning the candidate texts in emission
order (the `dist` component of the pushed records is dropped here; only
the `text` field survives into `query`). -/
def BkTree.queryCands : BkTree → String → ℚ → List String
  | ⟨none, _⟩, _, _ => []
  | ⟨some ro, cs⟩, q, r =>
    (if ((levD ro q : ℚ) ≤ r) then [ro] else []) ++
      (iterVals (levD ro q) r).flatMap (fun i =>
        match h : lookupChild i cs with
        | some c => BkTree.queryCands c q r
        | none => [])
  termination_by t _ _ => sizeOf t
  decreasing_by
    have hmem : ∃ pr, pr ∈ cs ∧ pr.2 = c := by
      unfold lookupChild at h
      cases hfind : cs.find? (fun p => ((p.1 : ℚ) = i : Bool)) with
      | none => rw [hfind] at h; simp at h
      | some pr =>
        rw [hfind] at h
        simp at h
        exact ⟨pr, List.mem_of_find?_eq_some hfind, h⟩
    obtain ⟨pr, hpr, hc⟩ := hmem
    have h1 : sizeOf pr < sizeOf cs := List.sizeOf_lt_of_mem hpr
    have h2 : sizeOf c ≤ sizeOf pr := by
      obtain ⟨a, b⟩ := pr
      simp at hc
      subst hc
      simp only [Prod.mk.sizeOf_spec]
      omega
    simp only [BkTree.mk.sizeOf_spec]
    omega

/-! The suggestion comparator of bktree.ts (`#compare`), its
normalizers, and `query`.  JS `.length` and `s[i]` act on UTF-16 code
units; the embedding works with code points, which coincides for
strings inside the Basic Multilingual Plane. -/

/-- Normalizer 1: `(str) => str.toLowerCase()`.  `Char.toLower` is the
ASCII fragment of the full-Unicode default case conversion that JS
performs (it leaves non-ASCII letters unchanged), so this definition is
exact only on ASCII inputs; every theorem below whose truth depends on
case conversion therefore restricts its words to ASCII explicitly, and
claims about non-ASCII case behaviour are outside this embedding. -/
def toLowerStr (s : String) : String := ⟨s.data.map Char.toLower⟩

/-- JS `toUpperCase`, with the same ASCII-fragment modelling boundary
as `toLowerStr`. -/
def toUpperStr (s : String) : String := ⟨s.data.map Char.toUpper⟩

/-- Normalizer 2: `replaceAll(/(.)\1/gsu, '$1')` — one left-to-right
pass collapsing each non-overlapping pair of equal adjacent code
points. -/
def collapsePairs : List Char → List Char
  | x :: y :: rest =>
    if x = y then x :: collapsePairs rest else x :: collapsePairs (y :: rest)
  | l => l

def collapseStr (s : String) : String := ⟨collapsePairs s.data⟩

/-- Modelled from the spec: `lexicographicalCompare` lives in
src/utils.ts, which is not among the provided sources; spec §4.6 calls
it a "lexicographic tiebreak on raw `a` vs `b`", and the inlined
variant in the older bundled copy reads
`a === b ? 0 : a > b ? 1 : -1`. -/
def lexicographicalCompare (a b : String) : Int :=
  if a = b then 0 else if a < b then -1 else 1

/-- The shared-prefix loop of `#compare`: the first index below both
lengths where `a[i] === q[i]` and `b[i] === q[i]` disagree decides
(out-of-range `q[i]` compares unequal, as `undefined` does in JS). -/
def prefixCmp : List Char → List Char → List Char → Int
  | qrem, x :: xs, y :: ys =>
    let aeq : Bool := match qrem with | qc :: _ => x = qc | [] => false
    let beq : Bool := match qrem with | qc :: _ => y = qc | [] => false
    if aeq && !beq then -1
    else if !aeq && beq then 1
    else prefixCmp qrem.tail xs ys
  | _, _, _ => 0

/-- `#compare(queryTerm)` of bktree.ts applied to candidates `a`, `b`:
exact match first, then normalization-equivalence (cumulative
normalizers), then Damerau distance per normalization stage, then the
shared-prefix loop, then the lexicographic tiebreak. -/
def bkCompare (q a b : String) : Int :=
  if a = q then -1
  else if b = q then 1
  else
    let a1 := toLowerStr a
    let b1 := toLowerStr b
    let q1 := toLowerStr q
    if a1 = q1 then -1
    else if b1 = q1 then 1
    else
      let a2 := collapseStr a1
      let b2 := collapseStr b1
      let q2 := collapseStr q1
      if a2 = q2 then -1
      else if b2 = q2 then 1
      else
        let d1 : Int := (damerauDistance a1 q1 : Int) - (damerauDistance b1 q1 : Int)
        if d1 ≠ 0 then d1
        else
          let d2 : Int := (damerauDistance a2 q2 : Int) - (damerauDistance b2 q2 : Int)
          if d2 ≠ 0 then d2
          else
            let p := prefixCmp q.data a.data b.data
            if p ≠ 0 then p else lexicographicalCompare a b

/-- `query` of bktree.ts: collect candidates, then
`.sort(this.#compare(queryTerm))`.  ES2023 `Array.prototype.sort` is
stable, embedded as a stable merge sort; when the comparator is
inconsistent the engine may produce some other permutation, and every
claim proved here about `query` is invariant under permutation. -/
def BkTree.query (t : BkTree) (q : String) (r : ℚ) : List String :=
  (t.queryCands q r).mergeSort (fun a b => decide (bkCompare q a b ≤ 0))

/-! The Typista class of the main module (Typo.js-derived).  The
structure models the private fields consulted by the checking and
suggesting paths: the dictionary table, the compiled compound rules,
the three flag directives the checker reads, and the lazily built
BK-tree.  The suggestion LRU cache is not modelled: it is cleared on
every dictionary mutation, so the memoized `suggest` agrees with the
pure function embedded here. -/

structure TypistaState where
  dictionaryTable : List (String × Option (List (List String)))
  compoundRules : List (List (List String))
  flagCOMPOUNDMIN : Option Nat
  flagONLYINCOMPOUND : Option String
  flagKEEPCASE : Option String
  bktree : Option BkTree

/-- `this.#dictionaryTable[word]`: outer `none` is JS `undefined`
(absent), `some none` is an entry with value `null`, `some (some gs)`
an entry with a flag-group list. -/
def lookupTable (tbl : List (String × Option (List (List String)))) (w : String) :
    Option (Option (List (List String))) :=
  (tbl.find? (fun p => p.1 == w)).map Prod.snd

/-- `this.#dictionaryTable[word] = v`: replace the existing binding in
place, or append a new one (JS objects keep one binding per key). -/
def setTable (tbl : List (String × Option (List (List String)))) (w : String)
    (v : Option (List (List String))) : List (String × Option (List (List String))) :=
  match tbl with
  | [] => [(w, v)]
  | (k, v2) :: rest => if k = w then (w, v) :: rest else (k, v2) :: setTable rest w v

/-- `delete this.#dictionaryTable[word]` (keys are unique in a JS
object; on an arbitrary association list every binding of the key is
removed to keep the operation total). -/
def eraseTable (tbl : List (String × Option (List (List String)))) (w : String) :
    List (String × Option (List (List String))) :=
  tbl.filter (fun p => !(p.1 == w))

/-- `#hasFlag(word, flag, wordFlags?)`: with no override, the word's
flag groups (absent or `null` giving `[]`) are flattened; the directive
must be configured and its value contained in the group. -/
def hasFlag (st : TypistaState) (word : String) (flagVal : Option String)
    (override : Option (List String)) : Bool :=
  let wordFlags := override.getD
    (match lookupTable st.dictionaryTable word with
     | some (some gs) => gs.flatten
     | _ => [])
  match flagVal with
  | some v => wordFlags.contains v
  | none => false

/-! Compound-rule regexes.  `#setup` compiles each `COMPOUNDRULE`
source into `new RegExp(expressionText, 'i')`, where each character
keying into `#compoundRuleCodes` contributes an alternation group
`(w₁|w₂|…)` over the headwords carrying that flag and every other
character is copied verbatim.  A compiled rule is embedded as a list of
alternation groups (`List (List String)`, a literal character being the
one-element group of its one-character string); this is exact whenever
the source pattern contains no regex metacharacters, and after the
empty-code deletion step every group is nonempty.  Matching is
case-insensitive (`'i'`), modelled by comparing lowercased code
points. -/

def lowerList (l : List Char) : List Char := l.map Char.toLower

/-- Case-insensitively, does the alternation word `w` start the text
`t`? -/
def matchesWordAt (w : List Char) (t : List Char) : Bool :=
  lowerList w == lowerList (t.take w.length)

/-- The whole text `t` is consumed by the groups in order. -/
def matchesItems : List (List String) → List Char → Bool
  | [], t => t.isEmpty
  | alts :: rest, t =>
    alts.any (fun w => matchesWordAt w.data t && matchesItems rest (t.drop w.data.length))

/-- Some prefix of `t` is consumed by the groups in order. -/
def prefixMatchB : List (List String) → List Char → Bool
  | [], _ => true
  | alts :: rest, t =>
    alts.any (fun w => matchesWordAt w.data t && prefixMatchB rest (t.drop w.data.length))

/-- JS `word.match(rule)` for an unanchored pattern: some substring
matches, i.e. the pattern matches a prefix of some suffix. -/
def searchMatch (items : List (List String)) : List Char → Bool
  | [] => prefixMatchB items []
  | c :: rest => prefixMatchB items (c :: rest) || searchMatch items rest

/-- The compound-regex compilation loop of `#setup` (lines building
`expressionText` from a rule source): rule-code characters become their
headword alternation, any other character is passed through as a
literal. -/
def compileCompoundRule (codes : List (Char × List String)) (src : String) :
    List (List String) :=
  src.data.map (fun ch =>
    match (codes.find? (fun p => p.1 == ch)).map Prod.snd with
    | some ws => ws
    | none => [String.singleton ch])

/-- `checkExact(word)`: absent words fall back to the compound-rule
regexes when `COMPOUNDMIN` is configured and the word is long enough; a
`null` entry accepts; a flag-group entry accepts iff some group lacks
the `ONLYINCOMPOUND` flag. -/
def checkExact (st : TypistaState) (word : String) : Bool :=
  match lookupTable st.dictionaryTable word with
  | none =>
    (match st.flagCOMPOUNDMIN with
     | some m =>
       if m ≤ word.length then
         st.compoundRules.any (fun rule => searchMatch rule word.data)
       else false
     | none => false)
  | some none => true
  | some (some gs) =>
    gs.any (fun g => !(hasFlag st word st.flagONLYINCOMPOUND (some g)))

/-- The JS `\s` class (ASCII whitespace plus the Unicode space
separators and BOM). -/
def isJsWhitespace (c : Char) : Bool :=
  c = ' ' || c = '\t' || c = '\n' || c = '\r' ||
  c.toNat = 11 || c.toNat = 12 || c.toNat = 0xa0 || c.toNat = 0x1680 ||
  (0x2000 ≤ c.toNat && c.toNat ≤ 0x200a) ||
  c.toNat = 0x2028 || c.toNat = 0x2029 || c.toNat = 0x202f ||
  c.toNat = 0x205f || c.toNat = 0x3000 || c.toNat = 0xfeff

/-- `word.replace(/^\s\s*/, '').replace(/\s\s*$/, '')`: strip the
leading whitespace run, then the trailing one. -/
def trimWord (w : String) : String :=
  ⟨((w.data.dropWhile isJsWhitespace).reverse.dropWhile isJsWhitespace).reverse⟩

/-- `trimmedWord[0] + …` inside string concatenation: JS indexing an
empty string yields `undefined`, which coerces to the text
`"undefined"`. -/
def charAtCoerced (s : String) : String :=
  match s.data with
  | [] => "undefined"
  | c :: _ => String.singleton c

/-- `check(word)`: trims, tries `checkExact`, then the all-caps and
capitalized variants with KEEPCASE handling.  Returns `none` when the
source would throw: `trimmedWord[0].toLowerCase()` on line 529 raises a
`TypeError` when the trimmed word is empty. -/
def check (st : TypistaState) (word : String) : Option Bool :=
  if word = "" then some false
  else
    let t := trimWord word
    if checkExact st t then some true
    else
      let afterCaps : Option Bool :=
        if toUpperStr t = t then
          let cap := charAtCoerced t ++ toLowerStr ⟨t.data.tail⟩
          if hasFlag st cap st.flagKEEPCASE none then some false
          else if checkExact st cap then some true
          else if checkExact st (toLowerStr t) then some true
          else none
        else none
      match afterCaps with
      | some v => some v
      | none =>
        if t = "" then none
        else
          let uncap := toLowerStr ⟨t.data.take 1⟩ ++ (⟨t.data.tail⟩ : String)
          if uncap ≠ t then
            if hasFlag st uncap st.flagKEEPCASE none then some false
            else if checkExact st uncap then some true
            else some false
          else some false

/-- `addWord(word, flags)`: the table entry becomes `flags ?? null`
verbatim; the BK-tree is extended only if already built; the suggestion
cache (not modelled) is cleared. -/
def TypistaState.addWord (st : TypistaState) (word : String)
    (flags : Option (List (List String))) : TypistaState :=
  { st with
    dictionaryTable := setTable st.dictionaryTable word flags,
    bktree := st.bktree.map (fun t => t.addWord word) }

/-- `removeWord(word)`: delete the table entry and clear the suggestion
cache (not modelled); the BK-tree is not pruned. -/
def TypistaState.removeWord (st : TypistaState) (word : String) : TypistaState :=
  { st with dictionaryTable := eraseTable st.dictionaryTable word }

/-- `get words()`: the dictionary keys.  (JS enumerates integer-like
keys first; claims proved here do not depend on the order.) -/
def TypistaState.words (st : TypistaState) : List String :=
  st.dictionaryTable.map Prod.fst

/-- `#getBkTree()`: the memoized lazy tree, built from the current
words on first use. -/
def getBkTree (st : TypistaState) : BkTree :=
  st.bktree.getD (BkTree.ofList st.words)

/-- `suggest(word, options)` after option merging: empty word gives
`[]`; the effective radius is 1 for single-character words, the
fractional rule for `maxDist < 1`, else `maxDist` itself; candidates
from the BK-tree query are filtered by current dictionary membership
and truncated to `limit`. -/
def suggest (st : TypistaState) (word : String) (maxDist : ℚ)
    (limit : Option Nat) : List String :=
  if word = "" then []
  else
    let r : ℚ :=
      if word.length = 1 then 1
      else if maxDist < 1 then
        min ((word.length : ℚ) - 1) ((⌈(word.length : ℚ) * maxDist⌉ : ℤ) : ℚ)
      else maxDist
    let res := ((getBkTree st).query word r).filter
      (fun x => (lookupTable st.dictionaryTable x).isSome)
    match limit with
    | none => res
    | some k => res.take k

theorem lookup_setTable (tbl : List (String × Option (List (List String))))
    (w : String) (v : Option (List (List String))) :
    lookupTable (setTable tbl w v) w = some v := by
  induction tbl with
  | nil => simp [setTable, lookupTable]
  | cons p rest ih =>
    obtain ⟨k, v2⟩ := p
    by_cases hk : k = w
    · simp [setTable, hk, lookupTable]
    · simp only [setTable, if_neg hk]
      rw [lookupTable, List.find?]
      have : (k == w) = false := by
        simp [hk]
      rw [this]
      exact ih

theorem lookup_eraseTable (tbl : List (String × Option (List (List String))))
    (w : String) : lookupTable (eraseTable tbl w) w = none := by
  rw [lookupTable]
  have h : List.find? (fun p => p.1 == w) (eraseTable tbl w) = none := by
    apply List.find?_eq_none.mpr
    intro p hp
    have := (List.mem_filter.mp hp).2
    simp at this
    simp [this]
  rw [h]
  rfl

theorem checkExact_of_null (st : TypistaState) (w : String)
    (h : lookupTable st.dictionaryTable w = some none) : checkExact st w = true := by
  rw [checkExact, h]

theorem checkExact_of_empty_groups (st : TypistaState) (w : String)
    (h : lookupTable st.dictionaryTable w = some (some [])) : checkExact st w = false := by
  rw [checkExact, h]
  simp

theorem checkExact_absent (st : TypistaState) (w : String)
    (h : lookupTable st.dictionaryTable w = none)
    (hcm : st.flagCOMPOUNDMIN = none) : checkExact st w = false := by
  rw [checkExact, h, hcm]

theorem hasFlag_absent (st : TypistaState) (w : String) (fv : Option String)
    (h : lookupTable st.dictionaryTable w = none) :
    hasFlag st w fv none = false := by
  simp only [hasFlag, h, Option.getD_none]
  cases fv <;> simp

theorem damerauCore_self (c : List Char) : damerauCore c c = 0 := by
  unfold damerauCore
  by_cases h : c.length = 0
  · rw [if_pos h]
    exact h
  · rw [if_neg h]
    have h1 : commonPrefixLen c.reverse c.reverse = c.length := by
      rw [commonPrefixLen_self, List.length_reverse]
    simp only [prefixSuffixPrep, h1, Nat.sub_self, List.take_zero]
    simp [commonPrefixLen]

theorem damerau_self (a : String) : damerauDistance a a = 0 := by
  unfold damerauDistance
  rw [if_neg (lt_irrefl _)]
  exact damerauCore_self a.data

theorem damerau_empty (a : String) : damerauDistance a "" = a.length := by
  unfold damerauDistance
  by_cases h : a.data.length > ("" : String).data.length
  · rw [if_pos h]
    unfold damerauCore
    rw [if_pos (show ("" : String).data.length = 0 by rfl)]
    rfl
  · rw [if_neg h]
    have h0 : a.data.length = 0 := by
      have : ("" : String).data.length = 0 := rfl
      omega
    unfold damerauCore
    rw [if_pos h0]
    have : a.length = a.data.length := rfl
    rw [this, h0]
    rfl

theorem suggest_mem_table (st : TypistaState) (q : String) (maxD : ℚ)
    (lim : Option Nat) (w : String) (hmem : w ∈ suggest st q maxD lim) :
    (lookupTable st.dictionaryTable w).isSome = true := by
  unfold suggest at hmem
  by_cases hq : q = ""
  · rw [if_pos hq] at hmem
    simp at hmem
  · rw [if_neg hq] at hmem
    dsimp only at hmem
    cases lim with
    | none => exact (List.mem_filter.mp hmem).2
    | some k => exact (List.mem_filter.mp (List.mem_of_mem_take hmem)).2

/-- Claim C9: the public `addWord(word, flagGroups)` replaces any
existing dictionary-table entry for `word` wholesale — regardless of
the prior state (including groups created by affix expansion at
construction), the entry afterwards is exactly the supplied groups, or
`null` when they are omitted. -/
theorem claim_C9 (st : TypistaState) (w : String) (fl : Option (List (List String))) :
    lookupTable ((st.addWord w fl).dictionaryTable) w = some fl := by
  simp only [TypistaState.addWord]
  exact lookup_setTable st.dictionaryTable w fl

/-- Claim C3 (counterexample): a dictionary-table entry mapping a word
to `[]` is rejected by `checkExact`, while an entry mapping it to
`null` is accepted — the two are not equivalent for acceptance. -/
theorem claim_C3_counterexample :
    checkExact ⟨[("a", some [])], [], none, none, none, none⟩ "a" = false ∧
    checkExact ⟨[("a", none)], [], none, none, none, none⟩ "a" = true := by
  constructor <;> decide

/-- Claim C3 (amended): a `null` entry means known-with-no-flags and
`checkExact` accepts it; an `[]` entry has no flag group granting
standalone use, and `checkExact` rejects it. -/
theorem claim_C3 (st : TypistaState) (w : String) :
    (lookupTable st.dictionaryTable w = some none → checkExact st w = true) ∧
    (lookupTable st.dictionaryTable w = some (some []) → checkExact st w = false) :=
  ⟨checkExact_of_null st w, checkExact_of_empty_groups st w⟩

theorem claim_C3_witness :
    (checkExact ⟨[("a", none)], [], none, none, none, none⟩ "a" = true) ∧
    (checkExact ⟨[("a", some [])], [], none, none, none, none⟩ "a" = false) :=
  ⟨(claim_C3 ⟨[("a", none)], [], none, none, none, none⟩ "a").1 (by decide),
   (claim_C3 ⟨[("a", some [])], [], none, none, none, none⟩ "a").2 (by decide)⟩

/-- Claim C5: `removeWord(w)` deletes the dictionary entry, and as long
as `w` has no dictionary-table entry (i.e. until it is re-added),
`suggest` never returns `w` for any query and options — even though the
BK-tree is not pruned and may still visit `w` during candidate
generation; the dictionary-membership filter removes it. -/
theorem claim_C5 (st0 st : TypistaState) (w q : String) (maxD : ℚ) (lim : Option Nat) :
    lookupTable ((st0.removeWord w).dictionaryTable) w = none ∧
    (lookupTable st.dictionaryTable w = none → w ∉ suggest st q maxD lim) := by
  constructor
  · exact lookup_eraseTable st0.dictionaryTable w
  · intro h hmem
    have := suggest_mem_table st q maxD lim w hmem
    rw [h] at this
    simp at this

theorem claim_C5_witness :
    lookupTable ((TypistaState.removeWord
        ⟨[("a", none)], [], none, none, none, none⟩ "a").dictionaryTable) "a" = none ∧
    "a" ∉ suggest ⟨[], [], none, none, none, none⟩ "b" 1 none :=
  ⟨(claim_C5 ⟨[("a", none)], [], none, none, none, none⟩
      ⟨[], [], none, none, none, none⟩ "a" "b" 1 none).1,
   (claim_C5 ⟨[("a", none)], [], none, none, none, none⟩
      ⟨[], [], none, none, none, none⟩ "a" "b" 1 none).2 rfl⟩

/-- Claim C4 (code bug evaluation): with query term `"aa"` and the
distinct candidates `"Aa"` and `"aA"`, both of which lowercase to the
query, the comparator returns `-1` in both argument orders — the
normalization-equivalence stage prefers its first argument — so it is
not antisymmetric and not a total order. -/
theorem claim_C4_eval :
    bkCompare "aa" "Aa" "aA" = -1 ∧ bkCompare "aa" "aA" "Aa" = -1 := by
  constructor <;> decide

/-- Claim C8 (amended): `damerauDistance` is zero on equal strings and
equal to the code-point count against the empty string, both for ALL
strings; it is symmetric for operands below the `Uint16Array`
truncation bound of 2^16 code points.  Beyond that bound symmetry
genuinely fails — see `claim_C8_counterexample` for an explicit pair of
65537-code-point strings whose two argument orders return 1 and
65536. -/
theorem claim_C8 (a b : String) :
    (a.length < 65536 → b.length < 65536 →
      damerauDistance a b = damerauDistance b a) ∧
    damerauDistance a a = 0 ∧ damerauDistance a "" = a.length := by
  refine ⟨fun ha hb => ?_, ?_, ?_⟩
  · rw [damerauDistance_eq_osa a b ha hb, damerauDistance_eq_osa b a hb ha, osa_symm]
  · exact damerau_self a
  · exact damerau_empty a

theorem claim_C8_witness :
    ("ab".length < 65536 ∧ "ba".length < 65536) ∧
    damerauDistance "ab" "ba" = damerauDistance "ba" "ab" ∧
    damerauDistance "ab" "ab" = 0 ∧ damerauDistance "ab" "" = "ab".length :=
  ⟨⟨by decide, by decide⟩, (claim_C8 "ab" "ba").1 (by decide) (by decide),
   (claim_C8 "ab" "ba").2.1, (claim_C8 "ab" "ba").2.2⟩

/-- Claim C1 (counterexample): on `"CA"` and `"ABC"` the code returns
3, while the unrestricted classical Damerau-Levenshtein distance (least
number of substitutions, insertions, deletions and adjacent
transpositions) is 2 (transpose to `"AC"`, then insert `'B'`), so
`damerauDistance` is not the unrestricted distance. -/
theorem claim_C1_counterexample :
    damerauDistance "CA" "ABC" = 3 ∧ dlDist "CA".data "ABC".data = 2 :=
  ⟨by decide, dlDist_CA_ABC⟩

/-- Claim C1 (amended): `damerauDistance(a, b)` equals the restricted
Damerau-Levenshtein (optimal string alignment) distance between the
code-point sequences of `a` and `b`, for strings of fewer than 2^16
code points (the bound under which the `Uint16Array` scratch rows
cannot truncate). -/
theorem claim_C1 (a b : String) (ha : a.length < 65536) (hb : b.length < 65536) :
    damerauDistance a b = osa a.data b.data :=
  damerauDistance_eq_osa a b ha hb

theorem claim_C1_witness :
    ("ab".length < 65536 ∧ "ba".length < 65536) ∧
    damerauDistance "ab" "ba" = osa "ab".data "ba".data :=
  ⟨⟨by decide, by decide⟩, claim_C1 "ab" "ba" (by decide) (by decide)⟩

theorem matchesWordAt_length_le {w t : List Char} (h : matchesWordAt w t = true) :
    w.length ≤ t.length := by
  unfold matchesWordAt at h
  rw [beq_iff_eq] at h
  have hlen := congrArg List.length h
  simp [lowerList] at hlen
  omega

theorem prefixMatchB_iff (items : List (List String)) :
    ∀ t, prefixMatchB items t = true ↔
      ∃ t1 t2, t = t1 ++ t2 ∧ matchesItems items t1 = true := by
  induction items with
  | nil =>
    intro t
    constructor
    · intro _
      exact ⟨[], t, rfl, rfl⟩
    · intro _
      rfl
  | cons alts rest ih =>
    intro t
    constructor
    · intro h
      simp only [prefixMatchB, List.any_eq_true] at h
      obtain ⟨w, hw, hand⟩ := h
      rw [Bool.and_eq_true] at hand
      obtain ⟨hm, hp⟩ := hand
      obtain ⟨t1, t2, heq, hmi⟩ := (ih (t.drop w.data.length)).mp hp
      have hlen : w.data.length ≤ t.length := matchesWordAt_length_le hm
      have htlen : (t.take w.data.length).length = w.data.length := by
        rw [List.length_take]
        omega
      refine ⟨t.take w.data.length ++ t1, t2, ?_, ?_⟩
      · rw [List.append_assoc, ← heq, List.take_append_drop]
      · simp only [matchesItems, List.any_eq_true]
        refine ⟨w, hw, ?_⟩
        rw [Bool.and_eq_true]
        constructor
        · unfold matchesWordAt at hm ⊢
          rw [List.take_append_of_le_length (by omega)]
          rw [List.take_take, min_self] at *
          exact hm
        · rw [List.drop_append_of_le_length (by omega)]
          have hdt : (t.take w.data.length).drop w.data.length = [] :=
            List.drop_eq_nil_of_le (by omega)
          rw [hdt, List.nil_append]
          exact hmi
    · rintro ⟨t1, t2, rfl, hmi⟩
      simp only [matchesItems, List.any_eq_true] at hmi
      obtain ⟨w, hw, hand⟩ := hmi
      rw [Bool.and_eq_true] at hand
      obtain ⟨hm, hrest⟩ := hand
      have hlen : w.data.length ≤ t1.length := matchesWordAt_length_le hm
      simp only [prefixMatchB, List.any_eq_true]
      refine ⟨w, hw, ?_⟩
      rw [Bool.and_eq_true]
      constructor
      · unfold matchesWordAt at hm ⊢
        rw [List.take_append_of_le_length hlen]
        exact hm
      · rw [List.drop_append_of_le_length hlen]
        exact (ih (t1.drop w.data.length ++ t2)).mpr ⟨t1.drop w.data.length, t2, rfl, hrest⟩

theorem searchMatch_iff (items : List (List String)) :
    ∀ t, searchMatch items t = true ↔
      ∃ pre mid post, t = pre ++ mid ++ post ∧ matchesItems items mid = true := by
  intro t
  induction t with
  | nil =>
    simp only [searchMatch]
    rw [prefixMatchB_iff]
    constructor
    · rintro ⟨t1, t2, heq, hm⟩
      have h12 : t1 = [] ∧ t2 = [] := by
        constructor <;> (cases t1 <;> simp_all)
      exact ⟨[], [], [], by simp, by rw [← h12.1]; exact hm⟩
    · rintro ⟨pre, mid, post, heq, hm⟩
      have hp : pre = [] ∧ mid = [] ∧ post = [] := by
        have h1 := congrArg List.length heq
        simp at h1
        refine ⟨?_, ?_, ?_⟩ <;> (apply List.eq_nil_of_length_eq_zero; omega)
      exact ⟨[], [], by simp, by rw [← hp.2.1]; exact hm⟩
  | cons c rest ih =>
    simp only [searchMatch, Bool.or_eq_true]
    constructor
    · rintro (h | h)
      · obtain ⟨t1, t2, heq, hm⟩ := (prefixMatchB_iff items (c :: rest)).mp h
        exact ⟨[], t1, t2, by simpa using heq, hm⟩
      · obtain ⟨pre, mid, post, heq, hm⟩ := ih.mp h
        exact ⟨c :: pre, mid, post, by simp [heq], hm⟩
    · rintro ⟨pre, mid, post, heq, hm⟩
      cases pre with
      | nil =>
        left
        apply (prefixMatchB_iff items (c :: rest)).mpr
        exact ⟨mid, post, by simpa using heq, hm⟩
      | cons c2 pre2 =>
        right
        apply ih.mpr
        refine ⟨pre2, mid, post, ?_, hm⟩
        simp at heq
        rw [List.append_assoc]
        exact heq.2

/-- Claim C2 (counterexample): with one compound rule compiled from the
source `"AB"` over code words `A ↦ {"x"}`, `B ↦ {"y"}` (so the regex is
`/(x)(y)/i`, matching `"xy"`), `COMPOUNDMIN = 1`, and the absent word
`"zxyw"`, `checkExact` returns true although no compiled compound regex
matches the whole word — `word.match(rule)` is unanchored and a
substring match suffices. -/
theorem claim_C2_counterexample :
    checkExact ⟨[], [compileCompoundRule [('A', ["x"]), ('B', ["y"])] "AB"],
      some 1, none, none, none⟩ "zxyw" = true ∧
    ∀ rule ∈ ([compileCompoundRule [('A', ["x"]), ('B', ["y"])] "AB"] :
        List (List (List String))), matchesItems rule "zxyw".data = false := by
  constructor
  · decide
  · decide

/-- Claim C2 (amended): for a word absent from the dictionary table,
`checkExact(w)` returns true iff `COMPOUNDMIN` is set, the word is long
enough, and some compiled compound regex matches a substring of `w`
(the compiled patterns are unanchored); otherwise it returns false. -/
theorem claim_C2 (st : TypistaState) (w : String)
    (habs : lookupTable st.dictionaryTable w = none) :
    checkExact st w = true ↔
      ∃ m, st.flagCOMPOUNDMIN = some m ∧ m ≤ w.length ∧
        ∃ rule ∈ st.compoundRules, ∃ pre mid post,
          w.data = pre ++ mid ++ post ∧ matchesItems rule mid = true := by
  rw [checkExact, habs]
  cases hcm : st.flagCOMPOUNDMIN with
  | none => simp
  | some m =>
    dsimp only
    by_cases hlen : m ≤ w.length
    · rw [if_pos hlen, List.any_eq_true]
      constructor
      · rintro ⟨rule, hr, hs⟩
        obtain ⟨pre, mid, post, heq, hm⟩ := (searchMatch_iff rule w.data).mp hs
        exact ⟨m, rfl, hlen, rule, hr, pre, mid, post, heq, hm⟩
      · rintro ⟨m2, hm2, hlen2, rule, hr, pre, mid, post, heq, hm⟩
        exact ⟨rule, hr, (searchMatch_iff rule w.data).mpr ⟨pre, mid, post, heq, hm⟩⟩
    · rw [if_neg hlen]
      constructor
      · intro h
        exact absurd h (by simp)
      · rintro ⟨m2, hm2, hlen2, -⟩
        injection hm2 with hmm
        omega

theorem claim_C2_witness :
    checkExact ⟨[], [compileCompoundRule [('A', ["x"]), ('B', ["y"])] "AB"],
      some 1, none, none, none⟩ "zxyw" = true :=
  (claim_C2 ⟨[], [compileCompoundRule [('A', ["x"]), ('B', ["y"])] "AB"],
      some 1, none, none, none⟩ "zxyw" rfl).mpr
    ⟨1, rfl, by decide, compileCompoundRule [('A', ["x"]), ('B', ["y"])] "AB",
     by simp, ['z'], ['x', 'y'], ['w'], by decide, by decide⟩

/-- Claim C6 (counterexample): after `addWord("")`, `check("")` is
false (the empty-input guard fires first); after `addWord(" a")`,
`check(" a")` is false (check trims, the table holds the untrimmed
key); and with `COMPOUNDMIN = 1` and a compound rule matching `"ab"`,
after `removeWord("ab")` both `check` and `checkExact` still accept
`"ab"` through the compound fallback. -/
theorem claim_C6_counterexample :
    check ((⟨[], [], none, none, none, none⟩ :
      TypistaState).addWord "" none) "" = some false ∧
    check ((⟨[], [], none, none, none, none⟩ :
      TypistaState).addWord " a" none) " a" = some false ∧
    check ((⟨[("ab", none)], [[["a"], ["b"]]], some 1, none, none,
      none⟩ : TypistaState).removeWord "ab") "ab" = some true ∧
    checkExact ((⟨[("ab", none)], [[["a"], ["b"]]], some 1, none, none,
      none⟩ : TypistaState).removeWord "ab") "ab" = true := by
  exact ⟨by decide, by decide, by decide, by decide⟩

/-- Claim C6 (amended): for a nonempty ASCII word equal to its own
trim, `check` and `checkExact` accept immediately after `addWord(w)`;
and after `removeWord(w)`, provided no compound fallback can apply
(`COMPOUNDMIN` unset) and neither `w` nor any of its capitalization
variants remains in the table, both reject.  The ASCII hypothesis marks
the boundary of the embedding: `toLowerStr`/`toUpperStr` model only the
ASCII fragment of the full-Unicode default case conversion JS performs,
so the capitalization variants this theorem consults coincide with the
program's exactly on ASCII words. -/
theorem claim_C6 (st : TypistaState) (w : String) (hne : w ≠ "")
    (hascii : ∀ c ∈ w.data, c.toNat < 128)
    (htrim : trimWord w = w) (hcm : st.flagCOMPOUNDMIN = none)
    (hcap : lookupTable (st.removeWord w).dictionaryTable
      (charAtCoerced w ++ toLowerStr ⟨w.data.tail⟩) = none)
    (hlow : lookupTable (st.removeWord w).dictionaryTable (toLowerStr w) = none)
    (huncap : lookupTable (st.removeWord w).dictionaryTable
      (toLowerStr ⟨w.data.take 1⟩ ++ (⟨w.data.tail⟩ : String)) = none) :
    (check (st.addWord w none) w = some true ∧
      checkExact (st.addWord w none) w = true) ∧
    (check (st.removeWord w) w = some false ∧
      checkExact (st.removeWord w) w = false) := by
  have hlook : lookupTable ((st.addWord w none).dictionaryTable) w = some none := by
    simp only [TypistaState.addWord]
    exact lookup_setTable _ _ _
  have hceT : checkExact (st.addWord w none) w = true :=
    checkExact_of_null _ _ hlook
  have hcm2 : (st.removeWord w).flagCOMPOUNDMIN = none := hcm
  have habs : lookupTable ((st.removeWord w).dictionaryTable) w = none :=
    lookup_eraseTable _ _
  have hceF : checkExact (st.removeWord w) w = false :=
    checkExact_absent _ _ habs hcm2
  have hcapF : checkExact (st.removeWord w)
      (charAtCoerced w ++ toLowerStr ⟨w.data.tail⟩) = false :=
    checkExact_absent _ _ hcap hcm2
  have hlowF : checkExact (st.removeWord w) (toLowerStr w) = false :=
    checkExact_absent _ _ hlow hcm2
  have huncapF : checkExact (st.removeWord w)
      (toLowerStr ⟨w.data.take 1⟩ ++ (⟨w.data.tail⟩ : String)) = false :=
    checkExact_absent _ _ huncap hcm2
  have hflagCap : hasFlag (st.removeWord w)
      (charAtCoerced w ++ toLowerStr ⟨w.data.tail⟩)
      (st.removeWord w).flagKEEPCASE none = false :=
    hasFlag_absent _ _ _ hcap
  have hflagUncap : hasFlag (st.removeWord w)
      (toLowerStr ⟨w.data.take 1⟩ ++ (⟨w.data.tail⟩ : String))
      (st.removeWord w).flagKEEPCASE none = false :=
    hasFlag_absent _ _ _ huncap
  refine ⟨⟨?_, hceT⟩, ⟨?_, hceF⟩⟩
  · unfold check
    rw [if_neg hne]
    dsimp only
    rw [htrim, if_pos hceT]
  · unfold check
    rw [if_neg hne]
    dsimp only
    rw [htrim]
    rw [if_neg (show ¬ (checkExact (st.removeWord w) w = true) by simp [hceF])]
    by_cases hup : toUpperStr w = w
    · rw [if_pos hup,
        if_neg (show ¬ (hasFlag (st.removeWord w)
          (charAtCoerced w ++ toLowerStr ⟨w.data.tail⟩)
          (st.removeWord w).flagKEEPCASE none = true) by simp [hflagCap]),
        if_neg (show ¬ (checkExact (st.removeWord w)
          (charAtCoerced w ++ toLowerStr ⟨w.data.tail⟩) = true) by simp [hcapF]),
        if_neg (show ¬ (checkExact (st.removeWord w) (toLowerStr w) = true) by
          simp [hlowF])]
      dsimp only
      rw [if_neg hne]
      by_cases huc : toLowerStr ⟨w.data.take 1⟩ ++ (⟨w.data.tail⟩ : String) ≠ w
      · rw [if_pos huc,
          if_neg (show ¬ (hasFlag (st.removeWord w)
            (toLowerStr ⟨w.data.take 1⟩ ++ (⟨w.data.tail⟩ : String))
            (st.removeWord w).flagKEEPCASE none = true) by simp [hflagUncap]),
          if_neg (show ¬ (checkExact (st.removeWord w)
            (toLowerStr ⟨w.data.take 1⟩ ++ (⟨w.data.tail⟩ : String)) = true) by
            simp [huncapF])]
      · rw [if_neg huc]
    · rw [if_neg hup]
      dsimp only
      rw [if_neg hne]
      by_cases huc : toLowerStr ⟨w.data.take 1⟩ ++ (⟨w.data.tail⟩ : String) ≠ w
      · rw [if_pos huc,
          if_neg (show ¬ (hasFlag (st.removeWord w)
            (toLowerStr ⟨w.data.take 1⟩ ++ (⟨w.data.tail⟩ : String))
            (st.removeWord w).flagKEEPCASE none = true) by simp [hflagUncap]),
          if_neg (show ¬ (checkExact (st.removeWord w)
            (toLowerStr ⟨w.data.take 1⟩ ++ (⟨w.data.tail⟩ : String)) = true) by
            simp [huncapF])]
      · rw [if_neg huc]

theorem claim_C6_witness :
    check ((⟨[("Hello", some [["K"]])], [], none, none, some "K", none⟩ :
        TypistaState).addWord "Hello" none) "Hello" = some true ∧
    check (TypistaState.removeWord
      ⟨[("Hello", some [["K"]])], [], none, none, some "K", none⟩ "Hello") "Hello" =
      some false := by
  have h := claim_C6 ⟨[("Hello", some [["K"]])], [], none, none, some "K", none⟩
    "Hello" (by decide) (by decide) (by decide) rfl (by decide) (by decide) (by decide)
  exact ⟨h.1.1, h.2.1⟩

/-! ### The BK-tree edge invariant (claim C7) -/

/-- The edge invariant of the BK-tree: at every node, each child entry
`(d, c)` hangs from a `some` root and stores a subtree whose root is at
Levenshtein distance exactly `d` from the node's root, recursively. -/
inductive EdgeInv : BkTree → Prop where
  | node (r : Option String) (cs : List (Nat × BkTree))
      (hedge : ∀ p ∈ cs, ∃ ro co, r = some ro ∧ BkTree.root p.2 = some co ∧
        levD ro co = p.1)
      (hrec : ∀ p ∈ cs, EdgeInv p.2) :
      EdgeInv ⟨r, cs⟩

/-- `addWord` never changes a root that is already present: the
`this.root == null` branch is not taken. -/
theorem addWord_root (c : BkTree) (w co : String) (h : BkTree.root c = some co) :
    BkTree.root (BkTree.addWord c w) = some co := by
  obtain ⟨ro, cs⟩ := c
  cases ro with
  | none => simp [BkTree.root] at h
  | some r2 =>
    simp only [BkTree.root] at h
    simp only [BkTree.addWord, BkTree.root]
    exact h

/-- `addWord` preserves the edge invariant: the new leaf is stored at
the edge labelled with its Levenshtein distance from the root, and a
descent into an existing child keeps that child's root.  (Strong
induction on the tree size, with an inner induction on the child list
for `insertChild`.) -/
theorem EdgeInv_addWord (w : String) :
    ∀ (n : Nat) (t : BkTree), sizeOf t ≤ n → EdgeInv t →
      EdgeInv (BkTree.addWord t w) := by
  intro n
  induction n with
  | zero =>
    intro t hsz _
    obtain ⟨r, cs⟩ := t
    simp only [BkTree.mk.sizeOf_spec] at hsz
    omega
  | succ n ih =>
    intro t hsz hI
    obtain ⟨r, cs⟩ := t
    cases r with
    | none =>
      have hcs : cs = [] := by
        cases hI with
        | node _ _ hedge hrec =>
          cases cs with
          | nil => rfl
          | cons p rest =>
            obtain ⟨ro, co, hsome, _, _⟩ := hedge p (List.mem_cons_self p rest)
            exact absurd hsome (by simp)
      subst hcs
      simp only [BkTree.addWord]
      exact EdgeInv.node _ _ (by simp) (by simp)
    | some rt =>
      cases hI with
      | node _ _ hedge hrec =>
        have hedge2 : ∀ p ∈ cs, ∃ co, BkTree.root p.2 = some co ∧ levD rt co = p.1 := by
          intro p hp
          obtain ⟨ro, co, hs, hc, hl⟩ := hedge p hp
          rw [Option.some_inj] at hs
          subst hs
          exact ⟨co, hc, hl⟩
        have hszcs : ∀ p ∈ cs, sizeOf p.2 ≤ n := by
          intro p hp
          have h1 := List.sizeOf_lt_of_mem hp
          obtain ⟨d2, c2⟩ := p
          simp only [Prod.mk.sizeOf_spec] at h1
          simp only [BkTree.mk.sizeOf_spec] at hsz
          show sizeOf c2 ≤ n
          omega
        have key : ∀ (l : List (Nat × BkTree)),
            (∀ p ∈ l, sizeOf p.2 ≤ n) →
            (∀ p ∈ l, ∃ co, BkTree.root p.2 = some co ∧ levD rt co = p.1) →
            (∀ p ∈ l, EdgeInv p.2) →
            (∀ p ∈ insertChild w (levD rt w) l,
              (∃ co, BkTree.root p.2 = some co ∧ levD rt co = p.1) ∧ EdgeInv p.2) := by
          intro l
          induction l with
          | nil =>
            intro _ _ _ p hp
            simp only [insertChild, List.mem_singleton] at hp
            subst hp
            exact ⟨⟨w, rfl, rfl⟩, EdgeInv.node _ _ (by simp) (by simp)⟩
          | cons hd tl ihl =>
            intro hszl hedgel hrecl
            obtain ⟨d2, c⟩ := hd
            by_cases hd2 : d2 = levD rt w
            · by_cases hroot : BkTree.root c = some w
              · intro p hp
                rw [show insertChild w (levD rt w) ((d2, c) :: tl) = (d2, c) :: tl by
                  simp [insertChild, hd2, hroot]] at hp
                exact ⟨hedgel p hp, hrecl p hp⟩
              · intro p hp
                rw [show insertChild w (levD rt w) ((d2, c) :: tl) =
                    (d2, BkTree.addWord c w) :: tl by
                  simp [insertChild, hd2, hroot]] at hp
                rcases List.mem_cons.mp hp with hph | hpt
                · subst hph
                  obtain ⟨co, hco, hlev⟩ := hedgel (d2, c) (List.mem_cons_self _ _)
                  refine ⟨⟨co, addWord_root c w co hco, hlev⟩, ?_⟩
                  exact ih c (hszl (d2, c) (List.mem_cons_self _ _))
                    (hrecl (d2, c) (List.mem_cons_self _ _))
                · exact ⟨hedgel p (List.mem_cons_of_mem _ hpt),
                    hrecl p (List.mem_cons_of_mem _ hpt)⟩
            · intro p hp
              rw [show insertChild w (levD rt w) ((d2, c) :: tl) =
                  (d2, c) :: insertChild w (levD rt w) tl by
                simp [insertChild, hd2]] at hp
              rcases List.mem_cons.mp hp with hph | hpt
              · subst hph
                exact ⟨hedgel _ (List.mem_cons_self _ _),
                  hrecl _ (List.mem_cons_self _ _)⟩
              · exact ihl (fun q hq => hszl q (List.mem_cons_of_mem _ hq))
                  (fun q hq => hedgel q (List.mem_cons_of_mem _ hq))
                  (fun q hq => hrecl q (List.mem_cons_of_mem _ hq)) p hpt
        simp only [BkTree.addWord]
        refine EdgeInv.node _ _ ?_ ?_
        · intro p hp
          obtain ⟨⟨co, hc, hl⟩, _⟩ := key cs hszcs hedge2 hrec p hp
          exact ⟨rt, co, rfl, hc, hl⟩
        · intro p hp
          exact (key cs hszcs hedge2 hrec p hp).2

/-- `addWords` (a fold of `addWord`) preserves the edge invariant. -/
theorem EdgeInv_addWords : ∀ (terms : List String) (t : BkTree), EdgeInv t →
    EdgeInv (BkTree.addWords t terms) := by
  intro terms
  induction terms with
  | nil => intro t hI; simpa [BkTree.addWords] using hI
  | cons a l ihl =>
    intro t hI
    have hstep : BkTree.addWords t (a :: l) = BkTree.addWords (BkTree.addWord t a) l := by
      simp [BkTree.addWords]
    rw [hstep]
    exact ihl _ (EdgeInv_addWord a (sizeOf t) t le_rfl hI)

/-- The constructor produces a tree satisfying the edge invariant. -/
theorem EdgeInv_ofList (ws : List String) : EdgeInv (BkTree.ofList ws) := by
  unfold BkTree.ofList
  cases h : ws.getLast? with
  | none => exact EdgeInv.node _ _ (by simp) (by simp)
  | some last => exact EdgeInv_addWords _ _ (EdgeInv.node _ _ (by simp) (by simp))

/-- **C7.**  BK-tree edge invariant: in every tree obtained by the
bktree.ts constructor from a word list followed by any sequence of
`addWord` calls, every child stored at edge label `d` under a node has
a root whose Levenshtein distance from the node's root equals `d`
(recursively at every node), as expressed by `EdgeInv`. -/
theorem claim_C7 (ws adds : List String) :
    EdgeInv (BkTree.addWords (BkTree.ofList ws) adds) :=
  EdgeInv_addWords adds (BkTree.ofList ws) (EdgeInv_ofList ws)

/-! ### Duplicate emission from `addWord` of the root term (claim C10) -/

/-- When no child is stored at label `d`, `insertChild` walks to the
end of the association list and appends a fresh one-node subtree. -/
theorem insertChild_append (w : String) (d : Nat) :
    ∀ (cs : List (Nat × BkTree)), (∀ p ∈ cs, p.1 ≠ d) →
      insertChild w d cs = cs ++ [(d, ⟨some w, []⟩)] := by
  intro cs
  induction cs with
  | nil => intro _; simp [insertChild]
  | cons hd tl ihl =>
    intro h
    obtain ⟨d2, c⟩ := hd
    have hne : d2 ≠ d := h (d2, c) (List.mem_cons_self _ _)
    rw [show insertChild w d ((d2, c) :: tl) = (d2, c) :: insertChild w d tl by
      simp [insertChild, hne]]
    rw [ihl (fun q hq => h q (List.mem_cons_of_mem _ hq))]
    simp

/-- One unfolding of `#query` at a node with a root: the root is
emitted when within range, then the loop scans `iterVals` and recurses
into the children it finds. -/
theorem queryCands_node (ro : String) (cs : List (Nat × BkTree)) (q : String) (r : ℚ) :
    BkTree.queryCands ⟨some ro, cs⟩ q r =
      (if ((levD ro q : ℚ) ≤ r) then [ro] else []) ++
        (iterVals (levD ro q) r).flatMap (fun i =>
          ((lookupChild i cs).map (fun c => BkTree.queryCands c q r)).getD []) := by
  simp only [BkTree.queryCands]
  congr 1
  congr 1
  funext i
  split <;> simp [*]

/-- **C10, counterexample.**  On the one-word tree with root "a",
`addWord "a")` does create a child at edge 0 rooted at "a", but the
claimed double emission fails for the fractional radius 1/2 ≥ 0: the
loop variable takes the values -1/2 and 1/2, never the integer key 0,
so the child is unreachable and the candidate list carries "a" once. -/
theorem claim_C10_counterexample :
    BkTree.addWord ⟨some "a", []⟩ "a" = ⟨some "a", [(0, ⟨some "a", []⟩)]⟩ ∧
    (0 : ℚ) ≤ 1 / 2 ∧
    List.count "a"
      (BkTree.queryCands (BkTree.addWord ⟨some "a", []⟩ "a") "a" (1 / 2 : ℚ)) = 1 := by
  have hlev : levD "a" "a" = 0 := levD_self "a"
  have hadd : BkTree.addWord ⟨some "a", []⟩ "a" = ⟨some "a", [(0, ⟨some "a", []⟩)]⟩ := by
    simp only [BkTree.addWord, hlev, insertChild]
  refine ⟨hadd, by norm_num, ?_⟩
  rw [hadd, queryCands_node, hlev]
  have hsteps : querySteps (1 / 2 : ℚ) = 2 := by
    unfold querySteps
    rw [if_neg (by norm_num)]
    rw [show (2 * (1 / 2 : ℚ)) = ((1 : Nat) : ℚ) by norm_num, Int.floor_natCast]
    rfl
  have hvals : iterVals 0 (1 / 2 : ℚ) = [-(1 / 2 : ℚ), (1 / 2 : ℚ)] := by
    unfold iterVals
    rw [hsteps]
    norm_num [List.range_succ]
  rw [hvals]
  have h1 : lookupChild (-(1 / 2 : ℚ)) [(0, (⟨some "a", []⟩ : BkTree))] = none := by
    unfold lookupChild
    norm_num
  have h2 : lookupChild ((1 / 2 : ℚ)) [(0, (⟨some "a", []⟩ : BkTree))] = none := by
    unfold lookupChild
    norm_num
  rw [show ((0 : Nat) : ℚ) = 0 by norm_num, if_pos (by norm_num)]
  simp only [List.flatMap_cons, List.flatMap_nil, h1, h2, Option.map_none, Option.getD_none]
  simp

/-- **C10 (amended).**  For every BK-tree node whose root equals a term
t and which has no child at edge 0, `addWord t` is not a no-op: it
appends a child at edge 0 whose root is also t, and a subsequent query
for t with any NATURAL-NUMBER radius r ≥ 0 emits t (at least) twice in
its candidate list, so query results are not guaranteed duplicate-free.
(For fractional radii the loop variable never equals the integer key 0
and the duplicate is not reached, as the counterexample shows.) -/
theorem claim_C10 (t : String) (cs : List (Nat × BkTree)) (r : Nat)
    (h0 : ∀ p ∈ cs, p.1 ≠ 0) :
    BkTree.addWord ⟨some t, cs⟩ t = ⟨some t, cs ++ [(0, ⟨some t, []⟩)]⟩ ∧
    2 ≤ List.count t
      (BkTree.queryCands (BkTree.addWord ⟨some t, cs⟩ t) t ((r : Nat) : ℚ)) := by
  have hlev : levD t t = 0 := levD_self t
  have hadd : BkTree.addWord ⟨some t, cs⟩ t = ⟨some t, cs ++ [(0, ⟨some t, []⟩)]⟩ := by
    simp only [BkTree.addWord, hlev]
    exact congrArg _ (insertChild_append t 0 cs h0)
  refine ⟨hadd, ?_⟩
  rw [hadd, queryCands_node, hlev]
  rw [if_pos (by simp)]
  have hsteps2 : querySteps ((r : Nat) : ℚ) = 2 * r + 1 := by
    unfold querySteps
    rw [if_neg (not_lt.mpr (Nat.cast_nonneg r))]
    rw [show (2 * ((r : Nat) : ℚ)) = ((2 * r : Nat) : ℚ) by push_cast; ring,
      Int.floor_natCast]
    omega
  have hmem : (0 : ℚ) ∈ iterVals 0 ((r : Nat) : ℚ) := by
    unfold iterVals
    rw [hsteps2]
    have hfr : ((0 : Nat) : ℚ) - ((r : Nat) : ℚ) + ((r : Nat) : ℚ) = 0 := by
      push_cast
      ring
    exact List.mem_map.mpr ⟨r, List.mem_range.mpr (by omega), hfr⟩
  obtain ⟨s1, s2, hsplit⟩ := List.append_of_mem hmem
  rw [hsplit, List.flatMap_append, List.flatMap_cons]
  have hlk : lookupChild 0 (cs ++ [(0, (⟨some t, []⟩ : BkTree))]) =
      some ⟨some t, []⟩ := by
    unfold lookupChild
    rw [List.find?_append]
    have hnone : cs.find? (fun p => ((p.1 : ℚ) = 0 : Bool)) = none := by
      rw [List.find?_eq_none]
      intro p hp
      simp only [decide_eq_true_eq]
      intro hc
      exact h0 p hp (by exact_mod_cast hc)
    rw [hnone]
    simp
  have hcleaf : 1 ≤ List.count t (BkTree.queryCands ⟨some t, []⟩ t ((r : Nat) : ℚ)) := by
    rw [queryCands_node, hlev, if_pos (by simp)]
    rw [List.count_append]
    have hone : List.count t [t] = 1 := by simp
    omega
  simp only [List.count_append]
  have h1 : List.count t [t] = 1 := by simp
  have h2 : 1 ≤ List.count t (((lookupChild 0 (cs ++ [(0, (⟨some t, []⟩ : BkTree))])).map
      (fun c => BkTree.queryCands c t ((r : Nat) : ℚ))).getD []) := by
    rw [hlk]
    simpa using hcleaf
  omega

/-- Witness for C10 at t = "a", cs = [], r = 0. -/
theorem claim_C10_witness :
    (∀ p ∈ ([] : List (Nat × BkTree)), p.1 ≠ 0) ∧
    (BkTree.addWord ⟨some "a", []⟩ "a" = ⟨some "a", [] ++ [(0, ⟨some "a", []⟩)]⟩ ∧
      2 ≤ List.count "a" (BkTree.queryCands (BkTree.addWord ⟨some "a", []⟩ "a") "a"
        (((0 : Nat) : Nat) : ℚ))) :=
  ⟨by simp, claim_C10 "a" [] 0 (by simp)⟩

/-! ### Truncation breaks the symmetry of `damerauDistance` (claim C8)

At 65537 code points the `Uint16Array` row stores wrap around and the
two argument orders of equal-length operands read back different
truncated values.  The concrete pair used below is `a = 'a'^65537`
against `b = 'b'^65535 ++ "ab"`: the code returns 1 in one order and
65536 in the other.  The computation is carried out symbolically, by
characterising every DP row of both runs in closed form (ramp rows
`max i j + 1`, then constant rows once the wrap has happened); no list
of length 65537 is ever evaluated. -/

/-- The all-`'a'` operand of the symmetry counterexample. -/
def aChars : List Char := List.replicate 65537 'a'

/-- The mostly-`'b'` operand of the symmetry counterexample (a single
`'a'` at position 65535). -/
def bChars : List Char := List.replicate 65535 'b' ++ ['a', 'b']

/-- The first 65535 entries of a DP row before the wrap: entry `j`
holds `max i j + 1` (row index `i`). -/
def rampRow (i : Nat) : List Nat := (List.range 65535).map (fun j => max i j + 1)

/-- `dpCell` on a character mismatch when the transposition guard is
dead: the three-way minimum plus one. -/
theorem dpCell_sub (ch1 pch1 pc2 c2 : Char) (i j diag above left ttc : Nat)
    (hne : ch1 ≠ c2)
    (hg : ¬(i ≠ 0 ∧ j ≠ 0 ∧ ch1 = pc2 ∧ pch1 = c2)) :
    dpCell ch1 pch1 pc2 c2 i j diag above left ttc =
      min left (min above diag) + 1 := by
  unfold dpCell
  rw [if_neg hne]
  simp only [ite_lt_eq_min]
  rw [if_neg]
  rintro ⟨h1, h2, h3, h4, -⟩
  exact hg ⟨h1, h2, h3, h4⟩

/-- `dpCell` on a character match: the diagonal, untouched. -/
theorem dpCell_eqc (ch1 pch1 pc2 c2 : Char) (i j diag above left ttc : Nat)
    (heq : ch1 = c2) :
    dpCell ch1 pch1 pc2 c2 i j diag above left ttc = diag := by
  unfold dpCell
  rw [if_pos heq]

/-- One explicit unfolding step of `innerGo` on cons-shaped arguments
(used where a `simp` unfold would keep reducing a literal-length
`List.replicate`). -/
theorem innerGo_cons (ch1 pch1 : Char) (i j : Nat) (c2 : Char) (cs2 : List Char)
    (lc : Nat) (lcs : List Nat) (lp : Nat) (lps : List Nat)
    (left above ntc : Nat) (pc2 : Char) (cc : Nat) :
    innerGo ch1 pch1 i j (c2 :: cs2) (lc :: lcs) (lp :: lps) left above ntc pc2 cc =
      ((dpCell ch1 pch1 pc2 c2 i j left above lc ntc) % 65536 ::
          (innerGo ch1 pch1 i (j + 1) cs2 lcs lps lc
            (dpCell ch1 pch1 pc2 c2 i j left above lc ntc) lp c2
            (dpCell ch1 pch1 pc2 c2 i j left above lc ntc)).1,
        left % 65536 ::
          (innerGo ch1 pch1 i (j + 1) cs2 lcs lps lc
            (dpCell ch1 pch1 pc2 c2 i j left above lc ntc) lp c2
            (dpCell ch1 pch1 pc2 c2 i j left above lc ntc)).2.1,
        (innerGo ch1 pch1 i (j + 1) cs2 lcs lps lc
          (dpCell ch1 pch1 pc2 c2 i j left above lc ntc) lp c2
          (dpCell ch1 pch1 pc2 c2 i j left above lc ntc)).2.2) := rfl

/-- One explicit unfolding step of `rowsGo` on a cons-shaped first
segment (avoids reducing a literal-length `List.replicate`). -/
theorem rowsGo_cons (seg2 : List Char) (ch : Char) (rest : List Char) (i : Nat)
    (pch : Char) (c1row prow : List Nat) (cc : Nat) :
    rowsGo seg2 (ch :: rest) i pch c1row prow cc =
      rowsGo seg2 rest (i + 1) ch
        (innerGo ch pch i 0 seg2 c1row prow i i 0 NULL_CHAR cc).1
        (innerGo ch pch i 0 seg2 c1row prow i i 0 NULL_CHAR cc).2.1
        (innerGo ch pch i 0 seg2 c1row prow i i 0 NULL_CHAR cc).2.2 := rfl

/-- `rowsGo` with no rows left returns the final scalar cost. -/
theorem rowsGo_nil (seg2 : List Char) (i : Nat) (pch : Char)
    (c1row prow : List Nat) (cc : Nat) :
    rowsGo seg2 [] i pch c1row prow cc = cc := rfl

/-- Mid-row scan over a mismatching constant block whose previous-row
entries all hold `C`: every cell evaluates to `C + 1` and the scalars
re-enter the same state, so the block can be peeled off wholesale. -/
theorem innerGo_const_mid (u pch v : Char) (huv : u ≠ v) (i C : Nat) :
    ∀ (m j0 : Nat) (rest2 : List Char) (rest1 prow : List Nat), m ≤ prow.length →
      ∀ (ntc : Nat),
      ∃ ntc2 pseg, pseg.length = m ∧
        innerGo u pch i j0 (List.replicate m v ++ rest2)
            (List.replicate m C ++ rest1) prow C (C + 1) ntc v (C + 1) =
          (List.replicate m ((C + 1) % 65536) ++
              (innerGo u pch i (j0 + m) rest2 rest1 (prow.drop m)
                C (C + 1) ntc2 v (C + 1)).1,
            pseg ++ (innerGo u pch i (j0 + m) rest2 rest1 (prow.drop m)
                C (C + 1) ntc2 v (C + 1)).2.1,
            (innerGo u pch i (j0 + m) rest2 rest1 (prow.drop m)
                C (C + 1) ntc2 v (C + 1)).2.2) := by
  intro m
  induction m with
  | zero =>
    intro j0 rest2 rest1 prow hpl ntc
    exact ⟨ntc, [], rfl, by simp⟩
  | succ m ih =>
    intro j0 rest2 rest1 prow hpl ntc
    cases prow with
    | nil => simp at hpl
    | cons lp lps =>
      have hpl2 : m ≤ lps.length := by simp at hpl; omega
      obtain ⟨ntc2, pseg, hlen, heq⟩ := ih (j0 + 1) rest2 rest1 lps hpl2 lp
      refine ⟨ntc2, (C % 65536) :: pseg, by simp [hlen], ?_⟩
      rw [List.replicate_succ, List.replicate_succ]
      simp only [innerGo, List.cons_append, List.append_eq]
      rw [dpCell_sub u pch v v i j0 C (C + 1) C ntc huv
        (by rintro ⟨-, -, h3, -⟩; exact huv h3)]
      rw [show min C (min (C + 1) C) + 1 = C + 1 from by omega]
      rw [heq]
      have hj : j0 + 1 + m = j0 + (m + 1) := by omega
      rw [hj]
      simp [List.replicate_succ]

/-- Mid-row scan over a matching constant block (`ch1 = c2`
everywhere) whose previous-row entries all hold `C < 2^16`: every cell
copies its diagonal, so the row stays at `C`. -/
theorem innerGo_eqconst_mid (pch v : Char) (i C : Nat) (hCM : C < 65536) :
    ∀ (m j0 : Nat) (rest2 : List Char) (rest1 prow : List Nat), m ≤ prow.length →
      ∀ (ntc : Nat),
      ∃ ntc2 pseg, pseg.length = m ∧
        innerGo v pch i j0 (List.replicate m v ++ rest2)
            (List.replicate m C ++ rest1) prow C C ntc v C =
          (List.replicate m C ++
              (innerGo v pch i (j0 + m) rest2 rest1 (prow.drop m)
                C C ntc2 v C).1,
            pseg ++ (innerGo v pch i (j0 + m) rest2 rest1 (prow.drop m)
                C C ntc2 v C).2.1,
            (innerGo v pch i (j0 + m) rest2 rest1 (prow.drop m)
                C C ntc2 v C).2.2) := by
  intro m
  induction m with
  | zero =>
    intro j0 rest2 rest1 prow hpl ntc
    exact ⟨ntc, [], rfl, by simp⟩
  | succ m ih =>
    intro j0 rest2 rest1 prow hpl ntc
    cases prow with
    | nil => simp at hpl
    | cons lp lps =>
      have hpl2 : m ≤ lps.length := by simp at hpl; omega
      obtain ⟨ntc2, pseg, hlen, heq⟩ := ih (j0 + 1) rest2 rest1 lps hpl2 lp
      refine ⟨ntc2, (C % 65536) :: pseg, by simp [hlen], ?_⟩
      rw [List.replicate_succ, List.replicate_succ]
      simp only [innerGo, List.cons_append, List.append_eq]
      rw [dpCell_eqc v pch v v i j0 C C C ntc rfl]
      rw [heq]
      have hj : j0 + 1 + m = j0 + (m + 1) := by omega
      rw [hj]
      rw [Nat.mod_eq_of_lt hCM]
      simp [List.replicate_succ]

/-- Row-start scan over a mismatching constant block: the first cell
(where `j = 0` disables the transposition guard) drops to `C + 1` given
entry scalars at least `C`, and the block then proceeds as in
`innerGo_const_mid`. -/
theorem innerGo_const (u pch v pc2 : Char) (huv : u ≠ v) (i C d0 a0 : Nat)
    (hd : C ≤ d0) (ha : C ≤ a0) :
    ∀ (m : Nat), 1 ≤ m → ∀ (rest2 : List Char) (rest1 prow : List Nat),
      m ≤ prow.length → ∀ (ntc cc : Nat),
      ∃ ntc2 pseg, pseg.length = m ∧
        innerGo u pch i 0 (List.replicate m v ++ rest2)
            (List.replicate m C ++ rest1) prow d0 a0 ntc pc2 cc =
          (List.replicate m ((C + 1) % 65536) ++
              (innerGo u pch i m rest2 rest1 (prow.drop m)
                C (C + 1) ntc2 v (C + 1)).1,
            pseg ++ (innerGo u pch i m rest2 rest1 (prow.drop m)
                C (C + 1) ntc2 v (C + 1)).2.1,
            (innerGo u pch i m rest2 rest1 (prow.drop m)
                C (C + 1) ntc2 v (C + 1)).2.2) := by
  intro m hm rest2 rest1 prow hpl ntc cc
  cases m with
  | zero => omega
  | succ m =>
    cases prow with
    | nil => simp at hpl
    | cons lp lps =>
      have hpl2 : m ≤ lps.length := by simp at hpl; omega
      obtain ⟨ntc2, pseg, hlen, heq⟩ :=
        innerGo_const_mid u pch v huv i C m 1 rest2 rest1 lps hpl2 lp
      refine ⟨ntc2, (d0 % 65536) :: pseg, by simp [hlen], ?_⟩
      rw [List.replicate_succ, List.replicate_succ]
      simp only [innerGo, List.cons_append, List.append_eq]
      rw [dpCell_sub u pch pc2 v i 0 d0 a0 C ntc huv
        (by rintro ⟨-, h2, -⟩; exact h2 rfl)]
      rw [show min C (min a0 d0) + 1 = C + 1 from by omega]
      rw [heq]
      have hj : 1 + m = m + 1 := by omega
      rw [hj]
      simp [List.replicate_succ]

/-- Row-start scan over a matching constant block: every cell copies
its diagonal, starting from an entry diagonal equal to `C`. -/
theorem innerGo_eqconst (pch v pc2 : Char) (i C a0 : Nat) (hCM : C < 65536) :
    ∀ (m : Nat), 1 ≤ m → ∀ (rest2 : List Char) (rest1 prow : List Nat),
      m ≤ prow.length → ∀ (ntc cc : Nat),
      ∃ ntc2 pseg, pseg.length = m ∧
        innerGo v pch i 0 (List.replicate m v ++ rest2)
            (List.replicate m C ++ rest1) prow C a0 ntc pc2 cc =
          (List.replicate m C ++
              (innerGo v pch i m rest2 rest1 (prow.drop m)
                C C ntc2 v C).1,
            pseg ++ (innerGo v pch i m rest2 rest1 (prow.drop m)
                C C ntc2 v C).2.1,
            (innerGo v pch i m rest2 rest1 (prow.drop m)
                C C ntc2 v C).2.2) := by
  intro m hm rest2 rest1 prow hpl ntc cc
  cases m with
  | zero => omega
  | succ m =>
    cases prow with
    | nil => simp at hpl
    | cons lp lps =>
      have hpl2 : m ≤ lps.length := by simp at hpl; omega
      obtain ⟨ntc2, pseg, hlen, heq⟩ :=
        innerGo_eqconst_mid pch v i C hCM m 1 rest2 rest1 lps hpl2 lp
      refine ⟨ntc2, (C % 65536) :: pseg, by simp [hlen], ?_⟩
      rw [List.replicate_succ, List.replicate_succ]
      simp only [innerGo, List.cons_append, List.append_eq]
      rw [dpCell_eqc v pch pc2 v i 0 C a0 C ntc rfl]
      rw [heq]
      have hj : 1 + m = m + 1 := by omega
      rw [hj]
      rw [Nat.mod_eq_of_lt hCM]
      simp [List.replicate_succ]

/-- Mid-row scan over a mismatching block against ramp-shaped
previous-row entries `max p (j0 + t) + 1`: each cell takes its minimum
on the diagonal and the row ramps up to `max i (j0 + t) + 1`, all
values staying below 2^16. -/
theorem innerGo_ramp_mid (u pch v : Char) (huv : u ≠ v) (i p : Nat)
    (hcase : i = p + 1 ∨ (p = 0 ∧ i = 0)) (hi : i ≤ 65534) :
    ∀ (m j0 : Nat), 1 ≤ j0 → j0 + m ≤ 65535 →
      ∀ (rest2 : List Char) (rest1 prow : List Nat), m ≤ prow.length →
      ∀ (ntc : Nat),
      ∃ ntc2 pseg, pseg.length = m ∧
        innerGo u pch i j0 (List.replicate m v ++ rest2)
            ((List.range m).map (fun t => max p (j0 + t) + 1) ++ rest1) prow
            (max p (j0 - 1) + 1) (max i (j0 - 1) + 1) ntc v (max i (j0 - 1) + 1) =
          ((List.range m).map (fun t => max i (j0 + t) + 1) ++
              (innerGo u pch i (j0 + m) rest2 rest1 (prow.drop m)
                (max p (j0 + m - 1) + 1) (max i (j0 + m - 1) + 1) ntc2 v
                (max i (j0 + m - 1) + 1)).1,
            pseg ++ (innerGo u pch i (j0 + m) rest2 rest1 (prow.drop m)
                (max p (j0 + m - 1) + 1) (max i (j0 + m - 1) + 1) ntc2 v
                (max i (j0 + m - 1) + 1)).2.1,
            (innerGo u pch i (j0 + m) rest2 rest1 (prow.drop m)
                (max p (j0 + m - 1) + 1) (max i (j0 + m - 1) + 1) ntc2 v
                (max i (j0 + m - 1) + 1)).2.2) := by
  intro m
  induction m with
  | zero =>
    intro j0 hj0 hjm rest2 rest1 prow hpl ntc
    exact ⟨ntc, [], rfl, by simp⟩
  | succ m ih =>
    intro j0 hj0 hjm rest2 rest1 prow hpl ntc
    cases prow with
    | nil => simp at hpl
    | cons lp lps =>
      have hpl2 : m ≤ lps.length := by simp at hpl; omega
      obtain ⟨ntc2, pseg, hlen, heq⟩ :=
        ih (j0 + 1) (by omega) (by omega) rest2 rest1 lps hpl2 lp
      refine ⟨ntc2, ((max p (j0 - 1) + 1) % 65536) :: pseg, by simp [hlen], ?_⟩
      rw [List.replicate_succ]
      rw [show (List.range (m + 1)).map (fun t => max p (j0 + t) + 1) =
          (max p j0 + 1) ::
            (List.range m).map (fun t => max p (j0 + 1 + t) + 1) from by
        rw [List.range_succ_eq_map, List.map_cons, List.map_map]
        refine congrArg₂ _ (by omega) ?_
        exact List.map_congr_left (fun t _ => by
          simp only [Function.comp_apply]
          omega)]
      rw [show (List.range (m + 1)).map (fun t => max i (j0 + t) + 1) =
          (max i j0 + 1) ::
            (List.range m).map (fun t => max i (j0 + 1 + t) + 1) from by
        rw [List.range_succ_eq_map, List.map_cons, List.map_map]
        refine congrArg₂ _ (by omega) ?_
        exact List.map_congr_left (fun t _ => by
          simp only [Function.comp_apply]
          omega)]
      simp only [innerGo, List.cons_append, List.append_eq]
      rw [dpCell_sub u pch v v i j0 (max p (j0 - 1) + 1) (max i (j0 - 1) + 1)
        (max p j0 + 1) ntc huv (by rintro ⟨-, -, h3, -⟩; exact huv h3)]
      rw [show min (max p j0 + 1)
            (min (max i (j0 - 1) + 1) (max p (j0 - 1) + 1)) + 1 =
          max i j0 + 1 from by
        rcases hcase with h | ⟨h1, h2⟩ <;> omega]
      rw [show max p j0 + 1 = max p ((j0 + 1) - 1) + 1 from by omega,
        show max i j0 + 1 = max i ((j0 + 1) - 1) + 1 from by omega]
      rw [heq]
      have hj : j0 + 1 + m = j0 + (m + 1) := by omega
      rw [hj]
      rw [show (max i ((j0 + 1) - 1) + 1) % 65536 = max i ((j0 + 1) - 1) + 1 from
        Nat.mod_eq_of_lt (by omega)]
      rw [show max i ((j0 + 1) - 1) + 1 = max i j0 + 1 from by omega]
      simp

/-- Row-start scan over a full-width (65535-column) mismatching ramp
block: entry scalars are both `i` (the loop initialisation
`leftCharCost = aboveCharCost = i`), the first cell (with the
transposition guard dead at `j = 0`) evaluates to `i + 1`, and the
block exits with both scalars at 65535. -/
theorem innerGo_ramp (u pch v pc2 : Char) (huv : u ≠ v) (i p : Nat)
    (hcase : i = p + 1 ∨ (p = 0 ∧ i = 0)) (hi : i ≤ 65534)
    (rest2 : List Char) (rest1 prow : List Nat) (hpl : 65535 ≤ prow.length)
    (ntc cc : Nat) :
    ∃ ntc2 pseg, pseg.length = 65535 ∧
      innerGo u pch i 0 (List.replicate 65535 v ++ rest2) (rampRow p ++ rest1) prow
          i i ntc pc2 cc =
        (rampRow i ++ (innerGo u pch i 65535 rest2 rest1 (prow.drop 65535)
            65535 65535 ntc2 v 65535).1,
          pseg ++ (innerGo u pch i 65535 rest2 rest1 (prow.drop 65535)
            65535 65535 ntc2 v 65535).2.1,
          (innerGo u pch i 65535 rest2 rest1 (prow.drop 65535)
            65535 65535 ntc2 v 65535).2.2) := by
  have hrep : List.replicate 65535 v = v :: List.replicate 65534 v := by
    rw [show (65535 : Nat) = 65534 + 1 from rfl, List.replicate_succ]
  have hrampP : rampRow p = (max p 0 + 1) ::
      (List.range 65534).map (fun t => max p (1 + t) + 1) := by
    unfold rampRow
    rw [show (65535 : Nat) = 65534 + 1 from rfl, List.range_succ_eq_map,
      List.map_cons, List.map_map]
    refine congrArg₂ _ (by omega) ?_
    exact List.map_congr_left (fun t _ => by simp only [Function.comp_apply]; omega)
  have hrampI : rampRow i = (max i 0 + 1) ::
      (List.range 65534).map (fun t => max i (1 + t) + 1) := by
    unfold rampRow
    rw [show (65535 : Nat) = 65534 + 1 from rfl, List.range_succ_eq_map,
      List.map_cons, List.map_map]
    refine congrArg₂ _ (by omega) ?_
    exact List.map_congr_left (fun t _ => by simp only [Function.comp_apply]; omega)
  have hpbound : p ≤ 65534 := by rcases hcase with h | ⟨h1, h2⟩ <;> omega
  cases prow with
  | nil => simp at hpl
  | cons lp lps =>
    have hpl2 : 65534 ≤ lps.length := by simp at hpl; omega
    obtain ⟨ntc2, pseg, hlen, heq⟩ :=
      innerGo_ramp_mid u pch v huv i p hcase hi 65534 1 (by omega) (by omega)
        rest2 rest1 lps hpl2 lp
    simp only [show (1 : Nat) - 1 = 0 from rfl,
      show (1 : Nat) + 65534 = 65535 from rfl,
      show (65535 : Nat) - 1 = 65534 from rfl] at heq
    rw [show max p 65534 + 1 = 65535 from by omega,
      show max i 65534 + 1 = 65535 from by omega] at heq
    refine ⟨ntc2, (i % 65536) :: pseg, by simp [hlen], ?_⟩
    rw [hrep, hrampP, hrampI]
    simp only [List.cons_append]
    rw [innerGo_cons]
    rw [dpCell_sub u pch pc2 v i 0 i i (max p 0 + 1) ntc huv
      (by rintro ⟨-, h2, -⟩; exact h2 rfl)]
    rw [show min (max p 0 + 1) (min i i) + 1 = max i 0 + 1 from by
      rcases hcase with h | ⟨h1, h2⟩ <;> omega]
    rw [show (0 : Nat) + 1 = 1 from rfl]
    rw [heq]
    rw [show (max i 0 + 1) % 65536 = max i 0 + 1 from Nat.mod_eq_of_lt (by omega)]
    rw [show List.drop 65535 (lp :: lps) = List.drop 65534 lps from by
      rw [show (65535 : Nat) = 65534 + 1 from rfl, List.drop_succ_cons]]

/-- At row 65534 the ramp has saturated: every entry is 65535. -/
theorem rampRow_top : rampRow 65534 = List.replicate 65535 65535 := by
  unfold rampRow
  refine List.eq_replicate_iff.mpr ⟨by simp, ?_⟩
  intro b hb
  rw [List.mem_map] at hb
  obtain ⟨j, hj, hv⟩ := hb
  rw [List.mem_range] at hj
  omega

/-- The `char1Costs[j] = ++j` initialisation at width 65537: a ramp up
to 65535, then the wrapped stores 0 and 1. -/
theorem initRow_65537 : initRow 65537 = rampRow 0 ++ [0, 1] := by
  unfold initRow rampRow
  rw [show (65537 : Nat) = 65536 + 1 from rfl, List.range_succ,
    show (65536 : Nat) = 65535 + 1 from rfl, List.range_succ]
  rw [List.map_append, List.map_append]
  rw [List.append_assoc]
  refine congrArg₂ _ ?_ ?_
  · exact List.map_congr_left (fun j hj => by
      rw [List.mem_range] at hj
      rw [Nat.mod_eq_of_lt (by omega)]
      omega)
  · rfl

/-- Row `i ≤ 65534` of the first run (`'a'^65537` as rows against
`bChars` as columns): from a previous row `ramp(p) ++ [x, y]` the scan
produces `ramp(i) ++ [65535, i + 1]` and exits with cost `i + 1`. -/
theorem rowO1 (i p x y : Nat) (pch : Char) (hpch : pch ≠ 'b')
    (hcase : i = p + 1 ∨ (p = 0 ∧ i = 0)) (hi : i ≤ 65534)
    (hxy : min (min x 65535) y = i) :
    ∀ (prow : List Nat), prow.length = 65537 → ∀ (ntc cc : Nat) (pc2 : Char),
    ∃ prow2, prow2.length = 65537 ∧
      innerGo 'a' pch i 0 bChars (rampRow p ++ [x, y]) prow i i ntc pc2 cc =
        (rampRow i ++ [65535, i + 1], prow2, i + 1) := by
  intro prow hp ntc cc pc2
  obtain ⟨ntc2, pseg, hlen, heq⟩ :=
    innerGo_ramp 'a' pch 'b' pc2 (by decide) i p hcase hi ['a', 'b'] [x, y] prow
      (by omega) ntc cc
  obtain ⟨q1, q2, hq⟩ := List.length_eq_two.mp
    (by rw [List.length_drop, hp] : (prow.drop 65535).length = 2)
  rw [hq] at heq
  have hT : innerGo 'a' pch i 65535 ['a', 'b'] [x, y] [q1, q2]
      65535 65535 ntc2 'b' 65535 = ([65535, i + 1], [65535, x % 65536], i + 1) := by
    simp only [innerGo]
    rw [dpCell_eqc 'a' pch 'b' 'a' i 65535 65535 65535 x ntc2 rfl]
    rw [show (65535 : Nat) + 1 = 65536 from rfl]
    rw [dpCell_sub 'a' pch 'a' 'b' i 65536 x 65535 y q1 (by decide)
      (by rintro ⟨-, -, -, h4⟩; exact hpch h4)]
    rw [show min y (min 65535 x) + 1 = i + 1 from by omega]
    rw [show (65535 : Nat) % 65536 = 65535 from rfl]
    rw [show (i + 1) % 65536 = i + 1 from Nat.mod_eq_of_lt (by omega)]
  rw [hT] at heq
  refine ⟨pseg ++ [65535, x % 65536], by simp [hlen], ?_⟩
  rw [show bChars = List.replicate 65535 'b' ++ ['a', 'b'] from rfl]
  exact heq

/-- Row 65535 of the first run: the previous row is saturated at
65535, every mismatching cell computes 65536 (stored truncated as 0),
and only the matching `'a'` column keeps 65535. -/
theorem rowO1b (pch : Char) (hpch : pch ≠ 'b') :
    ∀ (prow : List Nat), prow.length = 65537 → ∀ (ntc cc : Nat) (pc2 : Char),
    ∃ prow2, prow2.length = 65537 ∧
      innerGo 'a' pch 65535 0 bChars
          (List.replicate 65535 65535 ++ [65535, 65535]) prow
          65535 65535 ntc pc2 cc =
        (List.replicate 65535 0 ++ [65535, 0], prow2, 65536) := by
  intro prow hp ntc cc pc2
  obtain ⟨ntc2, pseg, hlen, heq⟩ :=
    innerGo_const 'a' pch 'b' pc2 (by decide) 65535 65535 65535 65535 le_rfl le_rfl
      65535 (by omega) ['a', 'b'] [65535, 65535] prow (by omega) ntc cc
  obtain ⟨q1, q2, hq⟩ := List.length_eq_two.mp
    (by rw [List.length_drop, hp] : (prow.drop 65535).length = 2)
  rw [hq] at heq
  have hT : innerGo 'a' pch 65535 65535 ['a', 'b'] [65535, 65535] [q1, q2]
      65535 65536 ntc2 'b' 65536 = ([65535, 0], [65535, 65535], 65536) := by
    simp only [innerGo]
    rw [dpCell_eqc 'a' pch 'b' 'a' 65535 65535 65535 65536 65535 ntc2 rfl]
    rw [show (65535 : Nat) + 1 = 65536 from rfl]
    rw [dpCell_sub 'a' pch 'a' 'b' 65535 65536 65535 65535 65535 q1 (by decide)
      (by rintro ⟨-, -, -, h4⟩; exact hpch h4)]
    rfl
  rw [hT] at heq
  rw [show ((65535 : Nat) + 1) % 65536 = 0 from rfl] at heq
  refine ⟨pseg ++ [65535, 65535], by simp [hlen], ?_⟩
  rw [show bChars = List.replicate 65535 'b' ++ ['a', 'b'] from rfl]
  exact heq

/-- Row 65536 of the first run: the previous row reads back as zeroes,
so every cell drops to 1 except the matching `'a'` column, which copies
the wrapped 0; the row exits with cost 1. -/
theorem rowO1c (pch : Char) (hpch : pch ≠ 'b') :
    ∀ (prow : List Nat), prow.length = 65537 → ∀ (ntc cc : Nat) (pc2 : Char),
    ∃ prow2, prow2.length = 65537 ∧
      innerGo 'a' pch 65536 0 bChars
          (List.replicate 65535 0 ++ [65535, 0]) prow
          65536 65536 ntc pc2 cc =
        (List.replicate 65535 1 ++ [0, 1], prow2, 1) := by
  intro prow hp ntc cc pc2
  obtain ⟨ntc2, pseg, hlen, heq⟩ :=
    innerGo_const 'a' pch 'b' pc2 (by decide) 65536 0 65536 65536 (by omega) (by omega)
      65535 (by omega) ['a', 'b'] [65535, 0] prow (by omega) ntc cc
  obtain ⟨q1, q2, hq⟩ := List.length_eq_two.mp
    (by rw [List.length_drop, hp] : (prow.drop 65535).length = 2)
  rw [hq] at heq
  have hT : innerGo 'a' pch 65536 65535 ['a', 'b'] [65535, 0] [q1, q2]
      0 1 ntc2 'b' 1 = ([0, 1], [0, 65535], 1) := by
    simp only [innerGo]
    rw [dpCell_eqc 'a' pch 'b' 'a' 65536 65535 0 1 65535 ntc2 rfl]
    rw [show (65535 : Nat) + 1 = 65536 from rfl]
    rw [dpCell_sub 'a' pch 'a' 'b' 65536 65536 65535 0 0 q1 (by decide)
      (by rintro ⟨-, -, -, h4⟩; exact hpch h4)]
    rfl
  rw [hT] at heq
  rw [show ((0 : Nat) + 1) % 65536 = 1 from rfl] at heq
  refine ⟨pseg ++ [0, 65535], by simp [hlen], ?_⟩
  rw [show bChars = List.replicate 65535 'b' ++ ['a', 'b'] from rfl]
  exact heq

/-- Rows `i`, `i+1`, …, 65536 of the first run, driven by the
remaining `'a'` characters: starting from the ramp invariant the run
finishes with final scalar cost 1. -/
theorem rowsO1 : ∀ (r i : Nat), i + r = 65537 → 1 ≤ i → i ≤ 65535 →
    ∀ (prow : List Nat), prow.length = 65537 → ∀ (cc : Nat),
    rowsGo bChars (List.replicate r 'a') i 'a'
      (rampRow (i - 1) ++ [65535, i]) prow cc = 1 := by
  intro r
  induction r with
  | zero => intro i h1 h2 h3 prow hp cc; omega
  | succ r ih =>
    intro i h1 h2 h3 prow hp cc
    rw [List.replicate_succ]
    simp only [rowsGo]
    by_cases hi65 : i ≤ 65534
    · obtain ⟨prow2, hlen2, heq⟩ := rowO1 i (i - 1) 65535 i 'a' (by decide)
        (Or.inl (by omega)) (by omega) (by omega) prow hp 0 cc NULL_CHAR
      rw [heq]
      dsimp only
      have hnext := ih (i + 1) (by omega) (by omega) (by omega) prow2 hlen2 (i + 1)
      simp only [Nat.add_sub_cancel] at hnext
      exact hnext
    · have hieq : i = 65535 := by omega
      subst hieq
      have hr : r = 1 := by omega
      subst hr
      rw [show (65535 : Nat) - 1 = 65534 from rfl, rampRow_top]
      obtain ⟨prow2, hlen2, heq⟩ := rowO1b 'a' (by decide) prow hp 0 cc NULL_CHAR
      rw [heq]
      dsimp only
      rw [List.replicate_succ]
      simp only [rowsGo]
      obtain ⟨prow3, hlen3, heq3⟩ :=
        rowO1c 'a' (by decide) prow2 hlen2 0 65536 NULL_CHAR
      rw [show (65535 : Nat) + 1 = 65536 from rfl, heq3]

/-- `commonPrefixLen` on lists with distinct heads is zero. -/
theorem commonPrefixLen_ne (x y : Char) (xs ys : List Char) (h : x ≠ y) :
    commonPrefixLen (x :: xs) (y :: ys) = 0 := by
  simp [commonPrefixLen, h]

/-- Neither a common prefix nor a common suffix exists between the two
counterexample operands, so `prefixSuffixPrep` strips nothing. -/
theorem psp_ab : prefixSuffixPrep aChars bChars = (65537, 65537, 0) := by
  have hexA : aChars = 'a' :: List.replicate 65536 'a' := by
    rw [show aChars = List.replicate 65537 'a' from rfl,
      show (65537 : Nat) = 65536 + 1 from rfl, List.replicate_succ]
  have hexB : bChars = 'b' :: (List.replicate 65534 'b' ++ ['a', 'b']) := by
    rw [show bChars = List.replicate 65535 'b' ++ ['a', 'b'] from rfl,
      show (65535 : Nat) = 65534 + 1 from rfl, List.replicate_succ, List.cons_append]
  have hrevA : aChars.reverse = 'a' :: List.replicate 65536 'a' := by
    rw [show aChars = List.replicate 65537 'a' from rfl, List.reverse_replicate,
      show (65537 : Nat) = 65536 + 1 from rfl, List.replicate_succ]
  have hrevB : bChars.reverse = 'b' :: ('a' :: List.replicate 65535 'b') := by
    rw [show bChars = List.replicate 65535 'b' ++ ['a', 'b'] from rfl,
      List.reverse_append, List.reverse_replicate]
    rfl
  have hk : commonPrefixLen aChars.reverse bChars.reverse = 0 := by
    rw [hrevA, hrevB, commonPrefixLen_ne _ _ _ _ (by decide)]
  have hstart : commonPrefixLen aChars bChars = 0 := by
    rw [hexA, hexB, commonPrefixLen_ne _ _ _ _ (by decide)]
  have hlA : aChars.length = 65537 := by
    rw [show aChars = List.replicate 65537 'a' from rfl, List.length_replicate]
  have hlB : bChars.length = 65537 := by
    rw [show bChars = List.replicate 65535 'b' ++ ['a', 'b'] from rfl,
      List.length_append, List.length_replicate]
    rfl
  simp only [prefixSuffixPrep]
  rw [hk, hlA, hlB, Nat.sub_zero]
  have htA : List.take 65537 aChars = aChars := List.take_of_length_le (by omega)
  have htB : List.take 65537 bChars = bChars := List.take_of_length_le (by omega)
  rw [htA, htB, hstart, Nat.sub_zero]

/-- First run of the counterexample: `damerauDistance('a'^65537,
'b'^65535 ++ "ab")` returns 1 — the wrapped zeroes of row 65535 let the
final row collapse to 1. -/
theorem damerau_trunc_1 : damerauDistance ⟨aChars⟩ ⟨bChars⟩ = 1 := by
  have hlA : aChars.length = 65537 := by
    rw [show aChars = List.replicate 65537 'a' from rfl, List.length_replicate]
  have hlB : bChars.length = 65537 := by
    rw [show bChars = List.replicate 65535 'b' ++ ['a', 'b'] from rfl,
      List.length_append, List.length_replicate]
    rfl
  unfold damerauDistance
  rw [show (⟨aChars⟩ : String).data = aChars from rfl,
    show (⟨bChars⟩ : String).data = bChars from rfl]
  rw [if_neg (by omega)]
  simp only [damerauCore]
  rw [if_neg (by omega)]
  rw [psp_ab]
  dsimp only
  rw [if_neg (by omega)]
  rw [List.drop_zero, List.drop_zero]
  have htA : List.take 65537 aChars = aChars := List.take_of_length_le (by omega)
  have htB : List.take 65537 bChars = bChars := List.take_of_length_le (by omega)
  rw [htA, htB]
  unfold distanceInternal
  rw [hlB, initRow_65537]
  rw [show aChars = 'a' :: List.replicate 65536 'a' from by
    rw [show aChars = List.replicate 65537 'a' from rfl,
      show (65537 : Nat) = 65536 + 1 from rfl, List.replicate_succ]]
  rw [rowsGo_cons]
  obtain ⟨prow2, hlen2, heq⟩ := rowO1 0 0 0 1 NULL_CHAR (by decide)
    (Or.inr ⟨rfl, rfl⟩) (by omega) (by omega) (List.replicate 65537 0)
    (by rw [List.length_replicate]) 0 0 NULL_CHAR
  rw [heq]
  dsimp only
  have hrest := rowsO1 65536 1 (by omega) le_rfl (by omega) prow2 hlen2 1
  simp only [show (1 : Nat) - 1 = 0 from rfl] at hrest
  exact hrest

/-- Row `i ≤ 65534` of the second run (`bChars` as rows against
`'a'^65537` as columns): from a previous row `ramp(p) ++ [x, y]` the
scan produces `ramp(i) ++ [i + 1, i + 1]` and exits with cost `i + 1`. -/
theorem rowO2 (i p x y : Nat) (pch : Char)
    (hcase : i = p + 1 ∨ (p = 0 ∧ i = 0)) (hi : i ≤ 65534)
    (hx : min x 65535 = i) (hy : min y (min (i + 1) x) = i) :
    ∀ (prow : List Nat), prow.length = 65537 → ∀ (ntc cc : Nat) (pc2 : Char),
    ∃ prow2, prow2.length = 65537 ∧
      innerGo 'b' pch i 0 aChars (rampRow p ++ [x, y]) prow i i ntc pc2 cc =
        (rampRow i ++ [i + 1, i + 1], prow2, i + 1) := by
  intro prow hp ntc cc pc2
  obtain ⟨ntc2, pseg, hlen, heq⟩ :=
    innerGo_ramp 'b' pch 'a' pc2 (by decide) i p hcase hi ['a', 'a'] [x, y] prow
      (by omega) ntc cc
  obtain ⟨q1, q2, hq⟩ := List.length_eq_two.mp
    (by rw [List.length_drop, hp] : (prow.drop 65535).length = 2)
  rw [hq] at heq
  have hT : innerGo 'b' pch i 65535 ['a', 'a'] [x, y] [q1, q2]
      65535 65535 ntc2 'a' 65535 = ([i + 1, i + 1], [65535, x % 65536], i + 1) := by
    simp only [innerGo]
    rw [dpCell_sub 'b' pch 'a' 'a' i 65535 65535 65535 x ntc2 (by decide)
      (by rintro ⟨-, -, h3, -⟩; exact absurd h3 (by decide))]
    rw [show min x (min 65535 65535) + 1 = i + 1 from by omega]
    rw [show (65535 : Nat) + 1 = 65536 from rfl]
    rw [dpCell_sub 'b' pch 'a' 'a' i 65536 x (i + 1) y q1 (by decide)
      (by rintro ⟨-, -, h3, -⟩; exact absurd h3 (by decide))]
    rw [show min y (min (i + 1) x) + 1 = i + 1 from by omega]
    rw [show (65535 : Nat) % 65536 = 65535 from rfl]
    rw [show (i + 1) % 65536 = i + 1 from Nat.mod_eq_of_lt (by omega)]
  rw [hT] at heq
  refine ⟨pseg ++ [65535, x % 65536], by simp [hlen], ?_⟩
  rw [show aChars = List.replicate 65535 'a' ++ ['a', 'a'] from by
    rw [show aChars = List.replicate 65537 'a' from rfl,
      show (65537 : Nat) = 65535 + 2 from rfl, List.replicate_add]
    rfl]
  exact heq

/-- Row 65535 of the second run is the all-matching `'a'` row: every
cell copies its diagonal and the row stays saturated at 65535. -/
theorem rowO2b (pch : Char) :
    ∀ (prow : List Nat), prow.length = 65537 → ∀ (ntc cc : Nat) (pc2 : Char),
    ∃ prow2, prow2.length = 65537 ∧
      innerGo 'a' pch 65535 0 aChars (List.replicate 65537 65535) prow
          65535 65535 ntc pc2 cc =
        (List.replicate 65537 65535, prow2, 65535) := by
  intro prow hp ntc cc pc2
  obtain ⟨ntc2, pseg, hlen, heq⟩ :=
    innerGo_eqconst pch 'a' pc2 65535 65535 65535 (by omega) 65537 (by omega)
      [] [] prow (by omega) ntc cc
  rw [List.append_nil, List.append_nil] at heq
  rw [show innerGo 'a' pch 65535 65537 [] [] (prow.drop 65537)
      65535 65535 ntc2 'a' 65535 = ([], [], 65535) from rfl] at heq
  rw [List.append_nil, List.append_nil] at heq
  refine ⟨pseg, by omega, ?_⟩
  rw [show aChars = List.replicate 65537 'a' from rfl]
  exact heq

/-- Row 65536 of the second run: the previous row is saturated at
65535, so every mismatching cell computes 65536, stored truncated as 0
but carried untruncated in the exit scalar. -/
theorem rowO2c (pch : Char) :
    ∀ (prow : List Nat), prow.length = 65537 → ∀ (ntc cc : Nat) (pc2 : Char),
    ∃ prow2, prow2.length = 65537 ∧
      innerGo 'b' pch 65536 0 aChars (List.replicate 65537 65535) prow
          65536 65536 ntc pc2 cc =
        (List.replicate 65537 0, prow2, 65536) := by
  intro prow hp ntc cc pc2
  obtain ⟨ntc2, pseg, hlen, heq⟩ :=
    innerGo_const 'b' pch 'a' pc2 (by decide) 65536 65535 65536 65536 (by omega)
      (by omega) 65537 (by omega) [] [] prow (by omega) ntc cc
  rw [List.append_nil, List.append_nil] at heq
  rw [show innerGo 'b' pch 65536 65537 [] [] (prow.drop 65537)
      65535 (65535 + 1) ntc2 'a' (65535 + 1) = ([], [], 65536) from rfl] at heq
  rw [List.append_nil, List.append_nil] at heq
  rw [show ((65535 : Nat) + 1) % 65536 = 0 from rfl] at heq
  refine ⟨pseg, by omega, ?_⟩
  rw [show aChars = List.replicate 65537 'a' from rfl]
  exact heq

/-- Rows `i`, …, 65536 of the second run: the ramp invariant carries
through the remaining `'b'` rows, the `'a'` row keeps the saturated
row, and the final `'b'` row exits with the untruncated scalar 65536. -/
theorem rowsO2 : ∀ (r i : Nat), i + r = 65535 → 1 ≤ i →
    ∀ (prow : List Nat), prow.length = 65537 → ∀ (cc : Nat),
    rowsGo aChars (List.replicate r 'b' ++ ['a', 'b']) i 'b'
      (rampRow (i - 1) ++ [i, i]) prow cc = 65536 := by
  intro r
  induction r with
  | zero =>
    intro i h1 h2 prow hp cc
    have hieq : i = 65535 := by omega
    subst hieq
    rw [show List.replicate 0 'b' ++ ['a', 'b'] = ['a', 'b'] from rfl]
    rw [show (65535 : Nat) - 1 = 65534 from rfl, rampRow_top]
    rw [show List.replicate 65535 65535 ++ [65535, 65535] =
        List.replicate 65537 65535 from by
      rw [show (65537 : Nat) = 65535 + 2 from rfl, List.replicate_add]
      rfl]
    rw [rowsGo_cons]
    obtain ⟨prow2, hlen2, heq⟩ := rowO2b 'b' prow hp 0 cc NULL_CHAR
    rw [heq]
    dsimp only
    rw [rowsGo_cons]
    obtain ⟨prow3, hlen3, heq3⟩ := rowO2c 'a' prow2 hlen2 0 65535 NULL_CHAR
    rw [show (65535 : Nat) + 1 = 65536 from rfl, heq3]
    dsimp only
    rw [rowsGo_nil]
  | succ r ih =>
    intro i h1 h2 prow hp cc
    rw [List.replicate_succ, List.cons_append, rowsGo_cons]
    obtain ⟨prow2, hlen2, heq⟩ := rowO2 i (i - 1) i i 'b'
      (Or.inl (by omega)) (by omega) (by omega) (by omega) prow hp 0 cc NULL_CHAR
    rw [heq]
    dsimp only
    have hnext := ih (i + 1) (by omega) (by omega) prow2 hlen2 (i + 1)
    simp only [Nat.add_sub_cancel] at hnext
    exact hnext

/-- `prefixSuffixPrep` also strips nothing in the swapped order. -/
theorem psp_ba : prefixSuffixPrep bChars aChars = (65537, 65537, 0) := by
  have hexA : aChars = 'a' :: List.replicate 65536 'a' := by
    rw [show aChars = List.replicate 65537 'a' from rfl,
      show (65537 : Nat) = 65536 + 1 from rfl, List.replicate_succ]
  have hexB : bChars = 'b' :: (List.replicate 65534 'b' ++ ['a', 'b']) := by
    rw [show bChars = List.replicate 65535 'b' ++ ['a', 'b'] from rfl,
      show (65535 : Nat) = 65534 + 1 from rfl, List.replicate_succ, List.cons_append]
  have hrevA : aChars.reverse = 'a' :: List.replicate 65536 'a' := by
    rw [show aChars = List.replicate 65537 'a' from rfl, List.reverse_replicate,
      show (65537 : Nat) = 65536 + 1 from rfl, List.replicate_succ]
  have hrevB : bChars.reverse = 'b' :: ('a' :: List.replicate 65535 'b') := by
    rw [show bChars = List.replicate 65535 'b' ++ ['a', 'b'] from rfl,
      List.reverse_append, List.reverse_replicate]
    rfl
  have hk : commonPrefixLen bChars.reverse aChars.reverse = 0 := by
    rw [hrevA, hrevB, commonPrefixLen_ne _ _ _ _ (by decide)]
  have hstart : commonPrefixLen bChars aChars = 0 := by
    rw [hexA, hexB, commonPrefixLen_ne _ _ _ _ (by decide)]
  have hlA : aChars.length = 65537 := by
    rw [show aChars = List.replicate 65537 'a' from rfl, List.length_replicate]
  have hlB : bChars.length = 65537 := by
    rw [show bChars = List.replicate 65535 'b' ++ ['a', 'b'] from rfl,
      List.length_append, List.length_replicate]
    rfl
  simp only [prefixSuffixPrep]
  rw [hk, hlA, hlB, Nat.sub_zero]
  have htA : List.take 65537 aChars = aChars := List.take_of_length_le (by omega)
  have htB : List.take 65537 bChars = bChars := List.take_of_length_le (by omega)
  rw [htA, htB, hstart, Nat.sub_zero]

/-- Second run of the counterexample: `damerauDistance('b'^65535 ++
"ab", 'a'^65537)` returns 65536 — the all-matching `'a'` row keeps the
saturated 65535 row, and the final row's untruncated scalar exits one
above it. -/
theorem damerau_trunc_2 : damerauDistance ⟨bChars⟩ ⟨aChars⟩ = 65536 := by
  have hlA : aChars.length = 65537 := by
    rw [show aChars = List.replicate 65537 'a' from rfl, List.length_replicate]
  have hlB : bChars.length = 65537 := by
    rw [show bChars = List.replicate 65535 'b' ++ ['a', 'b'] from rfl,
      List.length_append, List.length_replicate]
    rfl
  unfold damerauDistance
  rw [show (⟨bChars⟩ : String).data = bChars from rfl,
    show (⟨aChars⟩ : String).data = aChars from rfl]
  rw [if_neg (by omega)]
  simp only [damerauCore]
  rw [if_neg (by omega)]
  rw [psp_ba]
  dsimp only
  rw [if_neg (by omega)]
  rw [List.drop_zero, List.drop_zero]
  have htA : List.take 65537 aChars = aChars := List.take_of_length_le (by omega)
  have htB : List.take 65537 bChars = bChars := List.take_of_length_le (by omega)
  rw [htA, htB]
  unfold distanceInternal
  rw [hlA, initRow_65537]
  rw [show bChars = 'b' :: (List.replicate 65534 'b' ++ ['a', 'b']) from by
    rw [show bChars = List.replicate 65535 'b' ++ ['a', 'b'] from rfl,
      show (65535 : Nat) = 65534 + 1 from rfl, List.replicate_succ, List.cons_append]]
  rw [rowsGo_cons]
  obtain ⟨prow2, hlen2, heq⟩ := rowO2 0 0 0 1 NULL_CHAR
    (Or.inr ⟨rfl, rfl⟩) (by omega) (by omega) (by omega) (List.replicate 65537 0)
    (by rw [List.length_replicate]) 0 0 NULL_CHAR
  rw [heq]
  dsimp only
  have hrest := rowsO2 65534 1 (by omega) le_rfl prow2 hlen2 1
  simp only [show (1 : Nat) - 1 = 0 from rfl] at hrest
  exact hrest

/-- Claim C8 (counterexample): `damerauDistance` is not symmetric over
all strings.  On the equal-length pair `a = 'a'^65537` and
`b = 'b'^65535 ++ "ab"` — no swap happens and `prefixSuffixPrep` strips
nothing — the `Uint16Array` row stores wrap modulo 2^16 and the two
argument orders read back different truncated values: the code returns
1 in one order and 65536 in the other. -/
theorem claim_C8_counterexample :
    damerauDistance ⟨aChars⟩ ⟨bChars⟩ = 1 ∧
    damerauDistance ⟨bChars⟩ ⟨aChars⟩ = 65536 ∧
    damerauDistance ⟨aChars⟩ ⟨bChars⟩ ≠ damerauDistance ⟨bChars⟩ ⟨aChars⟩ :=
  ⟨damerau_trunc_1, damerau_trunc_2, by
    rw [damerau_trunc_1, damerau_trunc_2]
    omega⟩

end Typista
